import Mathlib

/-!
kraken: mount table and server pool

A shallow embedding of `server.go` (package `kraken`): the `MountMap` routing
table with its longest-prefix dispatch, and the `ServerPool` registry; and of
the handlers `removeServers` and `serverOr404` of `admin.go`.

Conventions of the embedding.

* A Go `string` is its sequence of bytes.  `len`, slicing, `==`,
  `strings.HasPrefix` and `strings.HasSuffix` act on that sequence, so a string
  is a `List` with one element per byte; the elements are written as `Char`
  so that ASCII literals stay readable.
* A Go `map[string]V` is an association list.  The order of the list is the
  order in which `range` enumerates the map; Go leaves that order unspecified,
  so statements are made for every list.  Functions do not require the keys to
  be distinct; `MountMap.WF` states it where it is needed.
* Collaborators that live outside `server.go` (the file-server factory, the
  handle it builds, `os.Stat`, a listener's `Close`) are parameters.
* Functions of the Go library that the code calls on strings
  (`strings.HasPrefix`, `path.IsAbs`, `path.Clean`, the rewriting of the url in
  `http.Redirect`) are written out after the library.
* Mutation is explicit state passing: an operation returns its Go results
  together with the table or pool it leaves behind.
-/

namespace Kraken

/-- A Go string, one list element per byte. -/
abbrev GoString := List Char

namespace strings

/-- Go `strings.HasPrefix`: `len(s) >= len(prefix) && s[0:len(prefix)] == prefix`. -/
def HasPrefix (s pre : GoString) : Bool :=
  decide (s.length ≥ pre.length) && (s.take pre.length == pre)

/-- Go `strings.HasSuffix`:
`len(s) >= len(suffix) && s[len(s)-len(suffix):] == suffix`. -/
def HasSuffix (s suf : GoString) : Bool :=
  decide (s.length ≥ suf.length) && (s.drop (s.length - suf.length) == suf)

end strings

namespace path

/-- Go `path.IsAbs`: `len(path) > 0 && path[0] == '/'`. -/
def IsAbs (p : GoString) : Bool :=
  match p with
  | [] => false
  | c :: _ => c == '/'

end path

namespace fileserver

/-- The `fileserver.Server` interface as far as `server.go` uses it besides
serving: a handle reports the root directory it serves. -/
class Server (β : Type) where
  /-- The Go method `Root() string`. -/
  Root : β → GoString

/-- The `fileserver.Factory` interface: `New(root, fsType, fsParams)` builds a
handle.  `π` is the type of `fileserver.Params`. -/
structure Factory (β π : Type) where
  /-- The Go method `New`. -/
  New : GoString → GoString → π → β

end fileserver

namespace os

/-- What `server.go` reads from an `os.FileInfo`. -/
structure FileInfo where
  /-- The Go method `IsDir()`. -/
  IsDir : Bool
  deriving DecidableEq, Repr

/-- The signature of `os.Stat`: a path gives a `FileInfo` or an error (kept as
its message). -/
abbrev StatFn := GoString → Except GoString FileInfo

end os

/-- The Go struct `MountMap`: the map `m` and the factory `fsf` (the mutex is
treated in the locking section). -/
structure MountMap (β π : Type) where
  /-- The Go field `m map[string]fileserver.Server`. -/
  m : List (GoString × β)
  /-- The Go field `fsf fileserver.Factory`. -/
  fsf : fileserver.Factory β π

/-- The errors `Put` returns. -/
inductive MountError where
  | ErrInvalidMountTarget
  | ErrInvalidMountSource
  | MountSourcePermError (err : GoString)
  deriving DecidableEq, Repr

namespace GoMap

/-- Go `v, ok := m[k]`. -/
def get {β : Type} (m : List (GoString × β)) (k : GoString) : Option β :=
  match m with
  | [] => none
  | (k', v) :: rest => if k' = k then some v else get rest k

/-- Go `m[k] = v`: the value of an existing key is replaced, a new key is
added. -/
def set {β : Type} (m : List (GoString × β)) (k : GoString) (v : β) :
    List (GoString × β) :=
  match m with
  | [] => [(k, v)]
  | (k', v') :: rest => if k' = k then (k, v) :: rest else (k', v') :: set rest k v

/-- Go `delete(m, k)`. -/
def delete {β : Type} (m : List (GoString × β)) (k : GoString) :
    List (GoString × β) :=
  m.filter (fun e => !decide (e.1 = k))

end GoMap

namespace MountMap

variable {β π : Type}

/-- The keys of a Go map are distinct. -/
def WF (mm : MountMap β π) : Prop := (mm.m.map Prod.fst).Nodup

/-- Go `NewMountMap`. -/
def NewMountMap (fsf : fileserver.Factory β π) : MountMap β π :=
  { m := [], fsf := fsf }

/-- Go `(*MountMap).Targets`. -/
def Targets (mm : MountMap β π) : List GoString :=
  mm.m.foldl (fun mountTargets e => mountTargets ++ [e.1]) []

/-- Go `(*MountMap).GetSource`. -/
def GetSource [fileserver.Server β] (mm : MountMap β π) (mountTarget : GoString) :
    GoString :=
  match GoMap.get mm.m mountTarget with
  | none => []
  | some fs => fileserver.Server.Root fs

/-- Go `(*MountMap).Put`, with `os.Stat` as the parameter `stat`.  The result is
the pair `(bool, error)` and the table after the call. -/
def Put (mm : MountMap β π) (stat : os.StatFn) (mountTarget mountSource fsType : GoString)
    (fsParams : π) : (Bool × Option MountError) × MountMap β π :=
  if !strings.HasPrefix mountTarget "/".toList then
    ((false, some .ErrInvalidMountTarget), mm)
  else if mountTarget ≠ "/".toList && strings.HasSuffix mountTarget "/".toList then
    ((false, some .ErrInvalidMountTarget), mm)
  else if !path.IsAbs mountSource then
    ((false, some .ErrInvalidMountSource), mm)
  else
    match stat mountSource with
    | .error err => ((false, some (.MountSourcePermError err)), mm)
    | .ok fi =>
      if !fi.IsDir then
        ((false, some (.MountSourcePermError (mountSource ++ ": not a directory".toList))), mm)
      else
        let ok := (GoMap.get mm.m mountTarget).isSome
        let fs := mm.fsf.New mountSource fsType fsParams
        ((ok, none), { mm with m := GoMap.set mm.m mountTarget fs })

/-- Go `(*MountMap).DeleteTarget`: the flag and the table after the call. -/
def DeleteTarget (mm : MountMap β π) (mountTarget : GoString) : Bool × MountMap β π :=
  let ok := (GoMap.get mm.m mountTarget).isSome
  (ok, { mm with m := GoMap.delete mm.m mountTarget })

/-- What `ServeHTTP` does with a request. -/
inductive Response (β : Type) where
  /-- `http.Error(w, "<path>: mount target or file not found", 404)`. -/
  | notFound (path : GoString)
  /-- `http.Redirect(w, r, location, 301)`. -/
  | redirect (location : GoString)
  /-- `http.Error(w, "mount target <t> not found", 404)` after a failed lookup. -/
  | targetNotFound (mountTarget : GoString)
  /-- `fs.ServeHTTP(w, r)` with `r.URL.Path = path`. -/
  | serve (fs : β) (path : GoString)
  deriving DecidableEq, Repr

/-- The `for t := range mm.m` loop of `ServeHTTP`: the state is
`(maxMountTargetLen, mountTarget)`. -/
def ServeHTTP.loop (urlPath : GoString) :
    List (GoString × β) → Nat × GoString → Nat × GoString
  | [], st => st
  | (t, _) :: rest, (maxMountTargetLen, mountTarget) =>
    if strings.HasPrefix urlPath t && decide (t.length ≥ maxMountTargetLen) then
      ServeHTTP.loop urlPath rest (t.length, t)
    else
      ServeHTTP.loop urlPath rest (maxMountTargetLen, mountTarget)

/-- The loop run from the zero values of its two variables. -/
def ServeHTTP.select (mm : MountMap β π) (urlPath : GoString) : Nat × GoString :=
  ServeHTTP.loop urlPath mm.m (0, [])

/-- Go `(*MountMap).ServeHTTP` on a request with `r.URL.Path = urlPath`.  The
slice `r.URL.Path[maxMountTargetLen:]` is `List.drop`: it is in range, the
selected target being a prefix of the path (`select_length_le`). -/
def ServeHTTP (mm : MountMap β π) (urlPath : GoString) : Response β :=
  let (maxMountTargetLen, mountTarget) := ServeHTTP.select mm urlPath
  if maxMountTargetLen == 0 then
    .notFound urlPath
  else
    let fwd (p : GoString) : Response β :=
      match GoMap.get mm.m mountTarget with
      | none => .targetNotFound mountTarget
      | some fs => .serve fs p
    if mountTarget ≠ "/".toList then
      let p := urlPath.drop maxMountTargetLen
      if p = [] then .redirect (mountTarget ++ "/".toList) else fwd p
    else
      fwd urlPath

end MountMap

namespace MountMap

variable {β π : Type}

/-- The tables a program can hold: `NewMountMap` builds one, `Put` and
`DeleteTarget` change it, and since Go enumerates a map in no fixed order the
same entries in another order are the same table. -/
inductive Reachable : MountMap β π → Prop where
  | new (fsf : fileserver.Factory β π) : Reachable (NewMountMap fsf)
  | put (mm : MountMap β π) (stat : os.StatFn) (mountTarget mountSource fsType : GoString)
      (fsParams : π) :
      Reachable mm → Reachable (Put mm stat mountTarget mountSource fsType fsParams).2
  | delete (mm : MountMap β π) (mountTarget : GoString) :
      Reachable mm → Reachable (DeleteTarget mm mountTarget).2
  | reorder (mm : MountMap β π) (m' : List (GoString × β)) :
      Reachable mm → m'.Perm mm.m → Reachable { mm with m := m' }

end MountMap

/-! ### Locking

`MountMap.mu` is a `sync.RWMutex`.  A method is seen here as the sequence of its
mutex calls and map accesses, in the order of the source; goroutines interleave
these steps. -/

namespace sync

/-- The state of a `sync.RWMutex`: the number of read locks held and whether the
write lock is held. -/
structure RWMutex where
  /-- Read locks held. -/
  readers : Nat
  /-- Whether the write lock is held. -/
  writer : Bool
  deriving DecidableEq, Repr

end sync

/-- One step of a method of `MountMap`: a call on `mm.mu`, or an access to
`mm.m`. -/
inductive Step where
  /-- `mm.mu.Lock()`. -/
  | Lock
  /-- `mm.mu.Unlock()`. -/
  | Unlock
  /-- `mm.mu.RLock()`. -/
  | RLock
  /-- `mm.mu.RUnlock()`. -/
  | RUnlock
  /-- A read of `mm.m`: an index expression or a `range`. -/
  | mapRead
  /-- A write of `mm.m`: an assignment or a `delete`. -/
  | mapWrite
  deriving DecidableEq, Repr

namespace sync

/-- The effect of a step on the mutex; `none` when the step cannot proceed
(`Lock` waits while any lock is held, `RLock` waits while the write lock is
held, and unlocking a lock that is not held is a fatal error).  Go also holds
back an `RLock` that arrives while a `Lock` is waiting; the schedules studied
below contain no waiting `Lock`. -/
def RWMutex.step (mu : RWMutex) : Step → Option RWMutex
  | .Lock => if mu.readers = 0 ∧ mu.writer = false then some { mu with writer := true } else none
  | .Unlock => if mu.writer = true then some { mu with writer := false } else none
  | .RLock => if mu.writer = false then some { mu with readers := mu.readers + 1 } else none
  | .RUnlock => if 0 < mu.readers then some { mu with readers := mu.readers - 1 } else none
  | .mapRead => some mu
  | .mapWrite => some mu

end sync

namespace MountMap

variable {β π : Type}

/-- The steps of `Targets`: `RLock`, the `range`, the deferred `RUnlock`. -/
def Targets.steps : List Step := [.RLock, .mapRead, .RUnlock]

/-- The steps of `GetSource`: `RLock`, the lookup, the deferred `RUnlock`. -/
def GetSource.steps : List Step := [.RLock, .mapRead, .RUnlock]

/-- The steps of `Put`: `Lock` first and the deferred `Unlock` last; between them
the lookup and the assignment, which a call that fails a check does not
reach. -/
def Put.steps (mm : MountMap β π) (stat : os.StatFn)
    (mountTarget mountSource fsType : GoString) (fsParams : π) : List Step :=
  match (Put mm stat mountTarget mountSource fsType fsParams).1.2 with
  | some _ => [.Lock, .Unlock]
  | none => [.Lock, .mapRead, .mapWrite, .Unlock]

/-- The steps of `DeleteTarget`: `RLock`, the lookup, the `delete`, the deferred
`RUnlock`. -/
def DeleteTarget.steps : List Step := [.RLock, .mapRead, .mapWrite, .RUnlock]

/-- The steps of `ServeHTTP`: `RLock` and the `range` loop (its reads of the map
are one step); then, by the way the request is answered, `RUnlock` before the 404 return, nothing more before the
return that follows `http.Redirect`, or the lookup and `RUnlock`. -/
def ServeHTTP.steps (mm : MountMap β π) (urlPath : GoString) : List Step :=
  match ServeHTTP mm urlPath with
  | .notFound _ => [.RLock, .mapRead, .RUnlock]
  | .redirect _ => [.RLock, .mapRead]
  | .targetNotFound _ => [.RLock, .mapRead, .mapRead, .RUnlock]
  | .serve _ _ => [.RLock, .mapRead, .mapRead, .RUnlock]

/-- Whether every write of the map in a sequence of steps happens while the
goroutine holds the write lock; `held` tells whether it holds it at the
start. -/
def writesHoldLock (held : Bool) : List Step → Bool
  | [] => true
  | .Lock :: rest => writesHoldLock true rest
  | .Unlock :: rest => writesHoldLock false rest
  | .mapWrite :: rest => held && writesHoldLock held rest
  | _ :: rest => writesHoldLock held rest

end MountMap

/-- Goroutines working on one `MountMap`: the state of its mutex and, for each
goroutine, the steps it has still to do. -/
structure Sys where
  /-- The mutex of the table. -/
  mu : sync.RWMutex
  /-- The remaining steps of each goroutine. -/
  goroutines : List (List Step)
  deriving DecidableEq, Repr

namespace Sys

/-- The next step of goroutine `i`, if it has one. -/
def next (s : Sys) (i : Nat) : Option Step :=
  match s.goroutines.get? i with
  | some (st :: _) => some st
  | _ => none

/-- Goroutine `i` does its next step; `none` when it has none or the mutex makes
it wait. -/
def step (s : Sys) (i : Nat) : Option Sys :=
  match s.goroutines.get? i with
  | some (st :: rest) =>
    match s.mu.step st with
    | some mu' => some { mu := mu', goroutines := s.goroutines.set i rest }
    | none => none
  | _ => none

/-- The system after the goroutines named by the schedule have each done a step,
in that order. -/
def run (s : Sys) : List Nat → Option Sys
  | [] => some s
  | i :: schedule =>
    match s.step i with
    | some s' => run s' schedule
    | none => none

/-- A data race on the map: goroutine `i` is about to write it while another
goroutine `j` is about to read or write it. -/
def raceAt (s : Sys) (i j : Nat) : Bool :=
  i != j && s.next i == some .mapWrite &&
    (s.next j == some .mapRead || s.next j == some .mapWrite)

end Sys

/-! ### The server pool -/

/-- A `net.Listener` as `Server.Close` sees it: the error its `Close` returns,
`none` for `nil`.  (`connsCloserListener.Close` closes the accepted
connections, logs their errors, and returns what the wrapped listener
returns.) -/
structure Listener where
  /-- The result of `Close()`. -/
  Close : Option GoString
  deriving DecidableEq, Repr

/-- The Go struct `Server`, with the fields the pool reads.  `Port` is a
`uint16`; `ln` is `nil` until `ListenAndServe` has bound the address. -/
structure Server where
  /-- The Go field `Addr`. -/
  Addr : GoString
  /-- The Go field `Port`. -/
  Port : Nat
  /-- The Go field `Running`. -/
  Running : Bool
  /-- The Go field `ln`. -/
  ln : Option Listener
  deriving DecidableEq, Repr

/-- How a call ends: it returns a value, or the goroutine panics. -/
inductive Outcome (α : Type) where
  | returns (a : α)
  | panics
  deriving DecidableEq, Repr

/-- Go `NewServer`: the port, the running flag and the listener have their zero
values. -/
def NewServer (addr : GoString) : Server :=
  { Addr := addr, Port := 0, Running := false, ln := none }

/-- Go `(*Server).Close`: `return s.ln.Close()`.  With `s.ln` the nil interface
the call is a nil dereference. -/
def Server.Close (s : Server) : Outcome (Option GoString) :=
  match s.ln with
  | none => .panics
  | some ln => .returns ln.Close

/-- The Go struct `ServerPool`, with the slice of its servers. -/
structure ServerPool where
  /-- The Go field `Srvs`. -/
  Srvs : List Server
  deriving DecidableEq, Repr

namespace ServerPool

/-- Go `NewServerPool`. -/
def NewServerPool : ServerPool := { Srvs := [] }

/-- Go `(*ServerPool).Add`; `checkAddr` is the result of the probe
`net.Listen` then `Close` on the address, `none` for `nil`. -/
def Add (sp : ServerPool) (checkAddr : GoString → Option GoString) (addr : GoString) :
    (Option Server × Option GoString) × ServerPool :=
  match checkAddr addr with
  | some err => ((none, some err), sp)
  | none =>
    let s := NewServer addr
    ((some s, none), { sp with Srvs := sp.Srvs ++ [s] })

/-- Go `(*ServerPool).Get`. -/
def Get (sp : ServerPool) (port : Nat) : Option Server :=
  sp.Srvs.find? (fun srv => srv.Port == port)

/-- The loop of `Remove` from index `i` on, `rest` being `sp.Srvs[i:]`.  On a
successful close the three slice statements leave `sp.Srvs[:i]` followed by
`sp.Srvs[i+1:]`. -/
def Remove.loop (sp : ServerPool) (port : Nat) :
    Nat → List Server → Outcome ((Bool × Option GoString) × ServerPool)
  | _, [] => .returns ((false, none), sp)
  | i, srv :: rest =>
    if srv.Port ≠ port then
      Remove.loop sp port (i + 1) rest
    else
      match srv.Close with
      | .panics => .panics
      | .returns (some err) => .returns ((false, some err), sp)
      | .returns none =>
        .returns ((true, none), { sp with Srvs := sp.Srvs.take i ++ sp.Srvs.drop (i + 1) })

/-- Go `(*ServerPool).Remove`. -/
def Remove (sp : ServerPool) (port : Nat) : Outcome ((Bool × Option GoString) × ServerPool) :=
  Remove.loop sp port 0 sp.Srvs

end ServerPool

/-- A probe that finds every address free. -/
def freeAddr : GoString → Option GoString := fun _ => none

/-- The pool after `Add(":8080")` on a new pool: one server, not yet listening. -/
def addedPool : ServerPool :=
  (ServerPool.Add ServerPool.NewServerPool freeAddr ":8080".toList).2

/-- One goroutine doing a sequence of steps with nobody else at work: the mutex
after the last step, `none` when a step cannot proceed. -/
def sync.RWMutex.steps (mu : sync.RWMutex) : List Step → Option sync.RWMutex
  | [] => some mu
  | st :: rest =>
    match mu.step st with
    | some mu' => sync.RWMutex.steps mu' rest
    | none => none

/-! ### Starting, pointers, and the admin handlers -/

/-- The state of a server once `ListenAndServe` has got its listener: `Addr` is
the address that was bound, `Port` is `uint16(port)` for the port of that
address, `ln` is the wrapped listener and `Running` is set. -/
def Server.bound (s : Server) (addr : GoString) (port : Nat) (ln : Listener) : Server :=
  { s with Addr := addr, Port := port % 65536, Running := true, ln := some ln }

namespace ServerPool

/-- The pools a program can hold: `NewServerPool` builds one, calls of `Add` and
`Remove` change it, and a registered server that has no listener yet starts to
listen (`ListenAndServe`, which the loop of `ListenAndRun` runs for it) and is
bound to a port from 1 to 65535.  `free sp port` says that the operating
system can bind a new listener to `port` while the listeners of `sp` are open.
A call of `Remove` that panics builds no pool. -/
inductive Attainable (free : ServerPool → Nat → Prop) : ServerPool → Prop where
  | new : Attainable free NewServerPool
  | add (sp : ServerPool) (checkAddr : GoString → Option GoString) (addr : GoString) :
      Attainable free sp → Attainable free (Add sp checkAddr addr).2
  | remove (sp : ServerPool) (port : Nat) (r : (Bool × Option GoString) × ServerPool) :
      Attainable free sp → Remove sp port = .returns r → Attainable free r.2
  | listen (sp : ServerPool) (pre post : List Server) (s : Server) (addr : GoString)
      (port : Nat) (ln : Listener) :
      Attainable free sp → sp.Srvs = pre ++ s :: post → s.ln = none →
      0 < port → port < 65536 → free sp port →
      Attainable free { sp with Srvs := pre ++ s.bound addr port ln :: post }

/-- An operating system that binds no port twice: `port` is free while no
listening server of the pool holds it. -/
def portFree (sp : ServerPool) (port : Nat) : Prop :=
  ∀ s ∈ sp.Srvs, s.ln ≠ none → s.Port ≠ port

end ServerPool

/-- A `*Server`: the address of a `Server` struct. -/
abbrev ServerPtr := Nat

/-- The pool with its pointers, as `StartSrv` needs it: `Srvs` is the slice of
pointers, `mem` gives the struct a pointer leads to, and `srvCh` lists the
pointers that the loop of `ListenAndRun` has received from the channel
`sp.srvCh`, oldest first. -/
structure PoolRefs where
  /-- The Go field `Srvs`. -/
  Srvs : List ServerPtr
  /-- The struct behind each pointer. -/
  mem : ServerPtr → Server
  /-- The values handed over on the Go field `srvCh`. -/
  srvCh : List ServerPtr

/-- How a call that sends on a channel ends: it returns a value, or it waits at
the send for ever. -/
inductive SendOutcome (α : Type) where
  | returns (a : α)
  | blocks

namespace PoolRefs

/-- The pool of structs that the pointers lead to. -/
def pool (sp : PoolRefs) : ServerPool := { Srvs := sp.Srvs.map sp.mem }

/-- The `for _, srv := range sp.Srvs` loop of `StartSrv`.  The channel
`sp.srvCh` has no buffer (`make(chan *Server)`), so the send `sp.srvCh <- s`
is over when a receiver takes the value: with the loop of `ListenAndRun`
receiving (`receiving`) the value is handed over and the call returns `true`,
and with nobody receiving the call waits at the send. -/
def StartSrv.loop (sp : PoolRefs) (receiving : Bool) (s : ServerPtr) :
    List ServerPtr → SendOutcome (Bool × PoolRefs)
  | [] => .returns (false, sp)
  | srv :: rest =>
    if srv = s then
      if receiving then .returns (true, { sp with srvCh := sp.srvCh ++ [s] })
      else .blocks
    else StartSrv.loop sp receiving s rest

/-- Go `(*ServerPool).StartSrv`: the flag and the pool after the call, or the
call waiting at its send; `receiving` tells whether the loop of
`ListenAndRun` is receiving from `sp.srvCh`. -/
def StartSrv (sp : PoolRefs) (receiving : Bool) (s : ServerPtr) :
    SendOutcome (Bool × PoolRefs) :=
  if (sp.mem s).Running then .returns (false, sp)
  else StartSrv.loop sp receiving s sp.Srvs

end PoolRefs

namespace ServerPool

/-- The three slice statements of `Remove` at index `i`, on the array behind a
slice of length `len`: `copy(s[i:], s[i+1:])` moves the elements after `i` one
place down, `s[len-1] = nil` clears the last place, and `s = s[:len-1]`
leaves the array as it is. -/
def Remove.shift (arr : List (Option Server)) (len i : Nat) : List (Option Server) :=
  (arr.take i ++ (arr.drop (i + 1)).take (len - (i + 1)) ++ arr.drop (len - 1)).set
    (len - 1) none

/-- An error that `removeServers` collects. -/
inductive RemoveError where
  /-- The error that `Remove` returned. -/
  | close (err : GoString)
  /-- `fmt.Errorf("error shutting down server on port %d", srv.Port)`. -/
  | notShutDown (port : Nat)
  deriving DecidableEq, Repr

/-- The answer of `removeServers`. -/
inductive Reply where
  /-- `w.WriteHeader(http.StatusOK)`. -/
  | ok
  /-- Status 500 with the collected messages. -/
  | internalServerError (errs : List RemoveError)
  deriving DecidableEq, Repr

/-- The `for _, srv := range spah.ServerPool.Srvs` loop of `removeServers`.  Go
evaluates the slice once, so the loop runs over the indices of the slice as it
was at the start and reads element `i` from the array `arr` behind it, which
`Remove` changes in place.  A nil element makes `srv.Port` a nil
dereference. -/
def removeServers.loop :
    List Nat → ServerPool → List (Option Server) → List RemoveError →
      Outcome (List RemoveError × ServerPool)
  | [], sp, _, errs => .returns (errs, sp)
  | i :: indices, sp, arr, errs =>
    match arr.get? i with
    | some (some srv) =>
      match sp.Remove srv.Port with
      | .panics => .panics
      | .returns ((_, some err), sp') =>
        removeServers.loop indices sp' arr (errs ++ [.close err])
      | .returns ((false, none), sp') =>
        removeServers.loop indices sp' arr (errs ++ [.notShutDown srv.Port])
      | .returns ((true, none), sp') =>
        removeServers.loop indices sp'
          (Remove.shift arr sp.Srvs.length (sp.Srvs.findIdx (fun x => x.Port == srv.Port)))
          errs
    | _ => .panics

/-- Go `(*serverPoolAdminHandler).removeServers`: the answer and the pool after
the call. -/
def removeServers (sp : ServerPool) : Outcome (Reply × ServerPool) :=
  match removeServers.loop (List.range sp.Srvs.length) sp (sp.Srvs.map some) [] with
  | .panics => .panics
  | .returns (errs, sp') =>
    if errs.length > 0 then .returns (.internalServerError errs, sp')
    else .returns (.ok, sp')

/-- What `serverOr404` does. -/
inductive Fetched where
  /-- `http.Error(w, err.Error(), 400)` and `nil`. -/
  | badRequest (err : GoString)
  /-- `http.Error(w, "server <port> not found", 404)` and `nil`. -/
  | notFound (port : Int)
  /-- The server is returned. -/
  | server (srv : Server)
  deriving DecidableEq, Repr

/-- Go `(*serverPoolAdminHandler).serverOr404`; `atoi` is the result of
`strconv.Atoi` on the route variable `port`.  The conversion `uint16(port)`
keeps the low 16 bits. -/
def serverOr404 (sp : ServerPool) (atoi : Except GoString Int) : Fetched :=
  match atoi with
  | .error err => .badRequest err
  | .ok port =>
    match sp.Get (port % 65536).toNat with
    | none => .notFound port
    | some srv => .server srv

end ServerPool

/-- A listener whose `Close` succeeds. -/
def okListener : Listener := { Close := none }

/-- A pool of two servers, listening on the ports 8080 and 8081. -/
def listeningPool : ServerPool :=
  { Srvs := [(NewServer ":8080".toList).bound "[::]:8080".toList 8080 okListener,
             (NewServer ":8081".toList).bound "[::]:8081".toList 8081 okListener] }

/-- The pool after `Add(":8080")` and `Add(":8081")` on a new pool. -/
def twiceAddedPool : ServerPool :=
  (ServerPool.Add addedPool freeAddr ":8081".toList).2

/-! ### The location of a redirect

`http.Redirect` does not send the url it is given as it stands: a url without
scheme and host is cleaned with `path.Clean`, its trailing slash kept. -/

namespace path

/-- The elements of a path: the pieces between its slashes. -/
def elements : GoString → List GoString
  | [] => [[]]
  | c :: cs =>
    if c = '/' then [] :: elements cs
    else
      match elements cs with
      | [] => [[c]]
      | e :: es => (c :: e) :: es

/-- One element in `Clean`; `out` holds the elements kept so far, the last one
first.  Empty elements and `.` are dropped; `..` removes the element before it,
is dropped at the root of a rooted path, and is kept at the start of a path
that is not rooted. -/
def Clean.step (rooted : Bool) (out : List GoString) (e : GoString) : List GoString :=
  if e = [] ∨ e = ".".toList then out
  else if e = "..".toList then
    match out with
    | [] => if rooted then [] else ["..".toList]
    | top :: rest => if top = "..".toList then "..".toList :: top :: rest else rest
  else e :: out

/-- Elements put together again with a slash between them. -/
def join : List GoString → GoString
  | [] => []
  | [e] => e
  | e :: es => e ++ '/' :: join es

/-- Go `path.Clean`: the shortest path equivalent to `p` by the four rules of its
documentation (one slash for several, no `.` element, no inner `..` with the
element before it, no `..` at the root); the empty result is `.`. -/
def Clean (p : GoString) : GoString :=
  if p = [] then ".".toList
  else
    let rooted : Bool := p.head? == some '/'
    let out := (elements p).foldl (Clean.step rooted) []
    let s := (if rooted then "/".toList else []) ++ join out.reverse
    if s = [] then ".".toList else s

/-- Go `path.Split`, the directory part: the path up to its last slash, the
slash included. -/
def SplitDir (p : GoString) : GoString :=
  (p.reverse.dropWhile (fun c => c != '/')).reverse

end path

namespace http

/-- The value `http.Redirect(w, r, url, code)` sets as the `Location` header, for
a `url` of ASCII bytes and a request with `r.URL.Path = oldpath`.  `relative`
tells whether `url.Parse` accepts the url and finds no scheme and no host in
it: only then is the url rewritten, made absolute against `oldpath` when it
does not begin with `/`, and cleaned up to its first `?`, a trailing slash
being kept. -/
def RedirectLocation (relative : Bool) (oldpath url : GoString) : GoString :=
  if relative then
    let oldpath := if oldpath = [] then "/".toList else oldpath
    let url := if url.head? ≠ some '/' then path.SplitDir oldpath ++ url else url
    let cut := url.span (fun c => c != '?')
    let trailing := strings.HasSuffix cut.1 "/".toList
    let cleaned := path.Clean cut.1
    (if trailing && !strings.HasSuffix cleaned "/".toList then cleaned ++ "/".toList
      else cleaned) ++ cut.2
  else url

end http

/-- The `Location` header of an answer of `ServeHTTP`.  At its call of
`http.Redirect` the path of the request is `""`, the prefix having been cut
off. -/
def MountMap.Response.location {β : Type} (relative : Bool) :
    MountMap.Response β → Option GoString
  | .redirect url => some (http.RedirectLocation relative [] url)
  | _ => none

/-- A handle that is identified by the root it was built for. -/
instance : fileserver.Server GoString := ⟨id⟩

/-- A factory whose handle for a source is that source. -/
def rootFactory : fileserver.Factory GoString Unit := ⟨fun root _ _ => root⟩

/-- A file system in which every path is a directory. -/
def dirStat : os.StatFn := fun _ => .ok ⟨true⟩

/-- The table of the dispatch scenario: `/` is mounted first, then `/docs`. -/
def docsTable : MountMap GoString Unit :=
  (MountMap.Put
    (MountMap.Put (MountMap.NewMountMap rootFactory) dirStat
      "/".toList "/srv/a".toList "local".toList ()).2
    dirStat "/docs".toList "/srv/b".toList "local".toList ()).2

/-- The table after `Put("/static", "/srv/www", "local", {})` on a new table. -/
def staticTable : MountMap GoString Unit :=
  (MountMap.Put (MountMap.NewMountMap rootFactory) dirStat
    "/static".toList "/srv/www".toList "local".toList ()).2

/-- The table after `Put("/a//b", "/srv/a", "local", {})` on a new table. -/
def slashTable : MountMap GoString Unit :=
  (MountMap.Put (MountMap.NewMountMap rootFactory) dirStat
    "/a//b".toList "/srv/a".toList "local".toList ()).2

/-- A pool with one registered server, at the address 1, that has not started;
nothing has been handed over on its channel. -/
def idleRefs : PoolRefs :=
  { Srvs := [1], mem := fun _ => NewServer ":8080".toList, srvCh := [] }

/-! ## Strings -/

theorem strings.HasPrefix_iff (s pre : GoString) :
    strings.HasPrefix s pre = true ↔ pre <+: s := by
  unfold strings.HasPrefix
  rw [List.prefix_iff_eq_take]
  constructor
  · intro h
    simp only [Bool.and_eq_true, decide_eq_true_eq, beq_iff_eq] at h
    exact h.2.symm
  · intro h
    have hl : pre.length ≤ s.length := by
      have := congrArg List.length h
      rw [List.length_take] at this
      omega
    simp only [Bool.and_eq_true, decide_eq_true_eq, beq_iff_eq]
    exact ⟨hl, h.symm⟩

theorem strings.HasSuffix_iff (s suf : GoString) :
    strings.HasSuffix s suf = true ↔ suf <:+ s := by
  unfold strings.HasSuffix
  rw [List.suffix_iff_eq_drop]
  constructor
  · intro h
    simp only [Bool.and_eq_true, decide_eq_true_eq, beq_iff_eq] at h
    exact h.2.symm
  · intro h
    have hl : suf.length ≤ s.length := by
      have := congrArg List.length h
      rw [List.length_drop] at this
      omega
    simp only [Bool.and_eq_true, decide_eq_true_eq, beq_iff_eq]
    exact ⟨hl, h.symm⟩

/-- A string has the prefix `"/"` exactly when its first byte is `/`. -/
theorem strings.HasPrefix_slash (s : GoString) :
    strings.HasPrefix s "/".toList = true ↔ s.head? = some '/' := by
  rw [strings.HasPrefix_iff]
  cases s with
  | nil => simp
  | cons c cs =>
    show ['/'] <+: c :: cs ↔ _
    simp [List.cons_prefix_cons, eq_comm]

/-- A string has the suffix `"/"` exactly when its last byte is `/`. -/
theorem strings.HasSuffix_slash (s : GoString) :
    strings.HasSuffix s "/".toList = true ↔ s.getLast? = some '/' := by
  rw [strings.HasSuffix_iff]
  show ['/'] <:+ s ↔ _
  constructor
  · rintro ⟨t, rfl⟩
    simp
  · intro h
    obtain ⟨t, rfl⟩ : ∃ t, s = t ++ ['/'] := by
      rcases List.eq_nil_or_concat s with rfl | ⟨t, c, rfl⟩
      · simp at h
      · simp at h
        exact ⟨t, by simp [h]⟩
    exact ⟨t, rfl⟩

/-- Two prefixes of one string that have the same length are equal. -/
theorem strings.prefix_eq_of_length_eq {s a b : GoString}
    (ha : strings.HasPrefix s a = true) (hb : strings.HasPrefix s b = true)
    (hlen : a.length = b.length) : a = b := by
  rw [strings.HasPrefix_iff, List.prefix_iff_eq_take] at ha hb
  rw [ha, hb, hlen]


/-! ## Go maps as association lists -/

namespace GoMap

variable {β : Type}

theorem get_isSome_iff (m : List (GoString × β)) (k : GoString) :
    (get m k).isSome = true ↔ k ∈ m.map Prod.fst := by
  induction m with
  | nil => simp [get]
  | cons e rest ih =>
    obtain ⟨k', v⟩ := e
    by_cases h : k' = k
    · simp only [get, h, if_true, Option.isSome_some, List.map_cons, List.mem_cons, true_or]
    · simp only [get, h, if_false, List.map_cons, List.mem_cons, ih]
      constructor
      · exact Or.inr
      · rintro (h' | h')
        · exact absurd h'.symm h
        · exact h'

theorem get_eq_none_iff (m : List (GoString × β)) (k : GoString) :
    get m k = none ↔ k ∉ m.map Prod.fst := by
  rw [← get_isSome_iff]
  cases get m k <;> simp

theorem get_mem {m : List (GoString × β)} {k : GoString} {v : β}
    (h : get m k = some v) : (k, v) ∈ m := by
  induction m with
  | nil => simp [get] at h
  | cons e rest ih =>
    obtain ⟨k', v'⟩ := e
    by_cases hk : k' = k
    · simp only [get, hk, if_true, Option.some.injEq] at h
      simp [hk, h]
    · simp only [get, hk, if_false] at h
      exact List.mem_cons_of_mem _ (ih h)

theorem exists_get_of_mem {m : List (GoString × β)} {k : GoString}
    (h : k ∈ m.map Prod.fst) : ∃ v, get m k = some v := by
  have := (get_isSome_iff m k).2 h
  exact Option.isSome_iff_exists.1 this

theorem mem_keys_set (m : List (GoString × β)) (k : GoString) (v : β) (k' : GoString) :
    k' ∈ (set m k v).map Prod.fst ↔ k' = k ∨ k' ∈ m.map Prod.fst := by
  induction m with
  | nil => simp only [set, List.map_cons, List.map_nil, List.mem_singleton, List.not_mem_nil,
      or_false]
  | cons e rest ih =>
    obtain ⟨k0, v0⟩ := e
    by_cases h : k0 = k
    · simp only [set, h, if_true, List.map_cons, List.mem_cons]
      tauto
    · simp only [set, h, if_false, List.map_cons, List.mem_cons, ih]
      tauto

theorem get_set_self (m : List (GoString × β)) (k : GoString) (v : β) :
    get (set m k v) k = some v := by
  induction m with
  | nil => simp only [set, get, if_true]
  | cons e rest ih =>
    obtain ⟨k0, v0⟩ := e
    by_cases h : k0 = k
    · simp only [set, h, if_true, get]
    · simp only [set, h, if_false, get, ih]

theorem get_set_ne (m : List (GoString × β)) (k : GoString) (v : β) {k' : GoString}
    (hne : k' ≠ k) : get (set m k v) k' = get m k' := by
  induction m with
  | nil => simp only [set, get, Ne.symm hne, if_false]
  | cons e rest ih =>
    obtain ⟨k0, v0⟩ := e
    by_cases h : k0 = k
    · subst h
      simp only [set, if_true, get, Ne.symm hne, if_false]
    · simp only [set, h, if_false, get, ih]

theorem mem_keys_delete (m : List (GoString × β)) (k k' : GoString) :
    k' ∈ (delete m k).map Prod.fst ↔ k' ≠ k ∧ k' ∈ m.map Prod.fst := by
  unfold delete
  simp only [List.mem_map, List.mem_filter, Bool.not_eq_true', decide_eq_false_iff_not]
  constructor
  · rintro ⟨e, ⟨he, hk⟩, rfl⟩
    exact ⟨hk, e, he, rfl⟩
  · rintro ⟨hk, e, he, rfl⟩
    exact ⟨e, ⟨he, hk⟩, rfl⟩

theorem get_delete_self (m : List (GoString × β)) (k : GoString) :
    get (delete m k) k = none := by
  rw [get_eq_none_iff, mem_keys_delete]
  exact fun h => h.1 rfl

theorem get_delete_ne (m : List (GoString × β)) (k : GoString) {k' : GoString}
    (hne : k' ≠ k) : get (delete m k) k' = get m k' := by
  induction m with
  | nil => rfl
  | cons e rest ih =>
    obtain ⟨k0, v0⟩ := e
    unfold delete at ih ⊢
    by_cases h : k0 = k
    · subst h
      simp only [List.filter, decide_True, Bool.not_true, get, Ne.symm hne, if_false, ih]
    · simp only [List.filter, h, decide_False, Bool.not_false, get, ih]

theorem delete_of_not_mem (m : List (GoString × β)) (k : GoString)
    (h : k ∉ m.map Prod.fst) : delete m k = m := by
  unfold delete
  rw [List.filter_eq_self]
  intro e he
  have : e.1 ≠ k := by
    rintro rfl
    exact h (List.mem_map_of_mem _ he)
  simpa using this

theorem nodup_keys_set (m : List (GoString × β)) (k : GoString) (v : β)
    (h : (m.map Prod.fst).Nodup) : ((set m k v).map Prod.fst).Nodup := by
  induction m with
  | nil => simp only [set, List.map_cons, List.map_nil, List.nodup_singleton]
  | cons e rest ih =>
    obtain ⟨k0, v0⟩ := e
    rw [List.map_cons, List.nodup_cons] at h
    by_cases hk : k0 = k
    · subst hk
      simp only [set, if_true, List.map_cons, List.nodup_cons]
      exact h
    · have hstep : set ((k0, v0) :: rest) k v = (k0, v0) :: set rest k v := by
        simp only [set, hk, if_false]
      rw [hstep, List.map_cons, List.nodup_cons, mem_keys_set]
      exact ⟨fun hmem => hmem.elim hk h.1, ih h.2⟩

theorem nodup_keys_delete (m : List (GoString × β)) (k : GoString)
    (h : (m.map Prod.fst).Nodup) : ((delete m k).map Prod.fst).Nodup := by
  unfold delete
  exact (List.filter_sublist m).map Prod.fst |>.nodup h

end GoMap

/-! ## Dispatch -/

namespace MountMap

variable {β π : Type}

theorem Targets_eq (mm : MountMap β π) : mm.Targets = mm.m.map Prod.fst := by
  have key : ∀ (l : List (GoString × β)) (init : List GoString),
      l.foldl (fun mountTargets e => mountTargets ++ [e.1]) init
        = init ++ l.map Prod.fst := by
    intro l
    induction l with
    | nil => intro init; simp
    | cons e rest ih => intro init; simp [ih]
  simpa using key mm.m []

/-- The invariant of the selection loop. -/
theorem ServeHTTP.loop_spec (urlPath : GoString) (l : List (GoString × β)) :
    ∀ (n0 : Nat) (T0 : GoString),
      n0 ≤ (ServeHTTP.loop urlPath l (n0, T0)).1 ∧
      (∀ t ∈ l.map Prod.fst, strings.HasPrefix urlPath t = true →
        t.length ≤ (ServeHTTP.loop urlPath l (n0, T0)).1) ∧
      ((ServeHTTP.loop urlPath l (n0, T0) = (n0, T0) ∧
          ∀ t ∈ l.map Prod.fst, strings.HasPrefix urlPath t = true → t.length < n0) ∨
        ((ServeHTTP.loop urlPath l (n0, T0)).2 ∈ l.map Prod.fst ∧
          strings.HasPrefix urlPath (ServeHTTP.loop urlPath l (n0, T0)).2 = true ∧
          (ServeHTTP.loop urlPath l (n0, T0)).1
            = (ServeHTTP.loop urlPath l (n0, T0)).2.length)) := by
  induction l with
  | nil =>
    intro n0 T0
    simp [ServeHTTP.loop]
  | cons e rest ih =>
    obtain ⟨t, v⟩ := e
    intro n0 T0
    by_cases hc : (strings.HasPrefix urlPath t && decide (t.length ≥ n0)) = true
    · have hstep : ServeHTTP.loop urlPath ((t, v) :: rest) (n0, T0)
          = ServeHTTP.loop urlPath rest (t.length, t) := by
        simp only [ServeHTTP.loop, hc, if_true]
      rw [hstep]
      simp only [Bool.and_eq_true, decide_eq_true_eq] at hc
      obtain ⟨h1, h2, h3⟩ := ih t.length t
      refine ⟨le_trans hc.2 h1, ?_, Or.inr ?_⟩
      · intro t' ht' hp
        simp only [List.map_cons, List.mem_cons] at ht'
        rcases ht' with rfl | ht'
        · exact h1
        · exact h2 t' ht' hp
      · rcases h3 with ⟨heq, _⟩ | ⟨hm, hp, hl⟩
        · rw [heq]
          exact ⟨List.mem_cons_self _ _, hc.1, rfl⟩
        · exact ⟨List.mem_cons_of_mem _ hm, hp, hl⟩
    · have hstep : ServeHTTP.loop urlPath ((t, v) :: rest) (n0, T0)
          = ServeHTTP.loop urlPath rest (n0, T0) := by
        simp only [ServeHTTP.loop, hc, if_false]
        simp
      rw [hstep]
      have hlt : strings.HasPrefix urlPath t = true → t.length < n0 := by
        intro hp
        simp only [hp, Bool.true_and, decide_eq_true_eq, ge_iff_le, not_le] at hc
        exact hc
      obtain ⟨h1, h2, h3⟩ := ih n0 T0
      refine ⟨h1, ?_, ?_⟩
      · intro t' ht' hp
        simp only [List.map_cons, List.mem_cons] at ht'
        rcases ht' with rfl | ht'
        · exact le_of_lt (lt_of_lt_of_le (hlt hp) h1)
        · exact h2 t' ht' hp
      · rcases h3 with ⟨heq, hall⟩ | ⟨hm, hp, hl⟩
        · refine Or.inl ⟨heq, ?_⟩
          intro t' ht' hp
          simp only [List.map_cons, List.mem_cons] at ht'
          rcases ht' with rfl | ht'
          · exact hlt hp
          · exact hall t' ht' hp
        · exact Or.inr ⟨List.mem_cons_of_mem _ hm, hp, hl⟩

/-- When some registered target is a prefix of the path, the loop ends with
`mountTarget` a registered prefix of greatest length and `maxMountTargetLen`
its length. -/
theorem ServeHTTP.select_spec (mm : MountMap β π) (urlPath T : GoString)
    (hreg : T ∈ mm.Targets) (hpre : strings.HasPrefix urlPath T = true) :
    ∃ S : GoString, ServeHTTP.select mm urlPath = (S.length, S) ∧ S ∈ mm.Targets ∧
      strings.HasPrefix urlPath S = true ∧
      ∀ t ∈ mm.Targets, strings.HasPrefix urlPath t = true → t.length ≤ S.length := by
  rw [Targets_eq] at hreg ⊢
  obtain ⟨_, h2, h3⟩ := ServeHTTP.loop_spec urlPath mm.m 0 []
  rcases h3 with ⟨_, hall⟩ | ⟨hm, hp, hl⟩
  · exact absurd (hall T hreg hpre) (Nat.not_lt_zero _)
  · refine ⟨(ServeHTTP.select mm urlPath).2, ?_, hm, hp, ?_⟩
    · exact Prod.ext hl rfl
    · intro t ht hpt
      have := h2 t ht hpt
      rw [hl] at this
      exact this

/-- When no registered target is a prefix of the path, the loop leaves its
variables at their zero values. -/
theorem ServeHTTP.select_none (mm : MountMap β π) (urlPath : GoString)
    (hno : ∀ t ∈ mm.Targets, strings.HasPrefix urlPath t = false) :
    ServeHTTP.select mm urlPath = (0, []) := by
  rw [Targets_eq] at hno
  obtain ⟨_, _, h3⟩ := ServeHTTP.loop_spec urlPath mm.m 0 []
  rcases h3 with ⟨heq, _⟩ | ⟨hm, hp, _⟩
  · exact heq
  · have := hno _ hm
    rw [this] at hp
    exact absurd hp (by decide)

/-- The body of `ServeHTTP` after the loop, for given values of the two loop
variables. -/
theorem ServeHTTP_of_select (mm : MountMap β π) (urlPath : GoString) {n : Nat}
    {T : GoString} (h : ServeHTTP.select mm urlPath = (n, T)) :
    ServeHTTP mm urlPath =
      if n = 0 then .notFound urlPath
      else if T ≠ "/".toList then
        if urlPath.drop n = [] then .redirect (T ++ "/".toList)
        else match GoMap.get mm.m T with
          | none => .targetNotFound T
          | some fs => .serve fs (urlPath.drop n)
      else match GoMap.get mm.m T with
        | none => .targetNotFound T
        | some fs => .serve fs urlPath := by
  unfold ServeHTTP
  rw [h]
  by_cases hn : n = 0
  · simp only [hn, beq_self_eq_true, if_true]
  · have : (n == 0) = false := by simpa using hn
    simp only [this, hn, if_false, Bool.false_eq_true]

/-- The slice `r.URL.Path[maxMountTargetLen:]` is in range. -/
theorem ServeHTTP.select_length_le (mm : MountMap β π) (urlPath : GoString) :
    (ServeHTTP.select mm urlPath).1 ≤ urlPath.length := by
  obtain ⟨_, _, h3⟩ := ServeHTTP.loop_spec urlPath mm.m 0 []
  rcases h3 with ⟨heq, _⟩ | ⟨_, hp, hl⟩
  · unfold ServeHTTP.select
    rw [heq]
    exact Nat.zero_le _
  · unfold ServeHTTP.select
    rw [hl]
    exact ((strings.HasPrefix_iff _ _).1 hp).length_le

/-- The response for a request whose longest registered prefix is the non-empty
target `T`, stored with backend `fs`. -/
theorem ServeHTTP_of_longest (mm : MountMap β π) (urlPath T : GoString)
    (hreg : T ∈ mm.Targets) (hpre : strings.HasPrefix urlPath T = true)
    (hmax : ∀ t ∈ mm.Targets, strings.HasPrefix urlPath t = true → t.length ≤ T.length)
    (hne : T ≠ []) :
    ∃ fs, GoMap.get mm.m T = some fs ∧
      ServeHTTP mm urlPath =
        if T = "/".toList then .serve fs urlPath
        else if urlPath.drop T.length = [] then .redirect (T ++ "/".toList)
        else .serve fs (urlPath.drop T.length) := by
  obtain ⟨S, hsel, hS, hSp, hSmax⟩ := ServeHTTP.select_spec mm urlPath T hreg hpre
  have hST : S = T :=
    strings.prefix_eq_of_length_eq hSp hpre (le_antisymm (hmax S hS hSp) (hSmax T hreg hpre))
  subst hST
  obtain ⟨fs, hfs⟩ := GoMap.exists_get_of_mem (by rw [← Targets_eq]; exact hreg)
  refine ⟨fs, hfs, ?_⟩
  rw [ServeHTTP_of_select mm urlPath hsel]
  have hlen : S.length ≠ 0 := by
    intro h0
    exact hne (List.length_eq_zero.1 h0)
  simp only [hlen, if_false, hfs]
  by_cases hs : S = "/".toList
  · simp only [hs, ne_eq, not_true_eq_false, if_false, if_true]
  · simp only [hs, ne_eq, not_false_eq_true, if_true, if_false]

/-- The checks `Put` makes on a mount target, as a property of the string. -/
theorem Put_target_checks (mountTarget : GoString) :
    ((!strings.HasPrefix mountTarget "/".toList) = false ∧
      (decide (mountTarget ≠ "/".toList) && strings.HasSuffix mountTarget "/".toList) = false)
    ↔ (mountTarget.head? = some '/' ∧
        (mountTarget = "/".toList ∨ mountTarget.getLast? ≠ some '/')) := by
  have hp := strings.HasPrefix_slash mountTarget
  have hsuf := strings.HasSuffix_slash mountTarget
  constructor
  · rintro ⟨h1, h2⟩
    refine ⟨hp.1 (by simpa using h1), ?_⟩
    by_cases hroot : mountTarget = "/".toList
    · exact Or.inl hroot
    · right
      intro hlast
      have h3 := hsuf.2 hlast
      rw [h3, Bool.and_true] at h2
      exact hroot (by simpa using h2)
  · rintro ⟨h1, h2⟩
    refine ⟨by rw [hp.2 h1]; rfl, ?_⟩
    rcases h2 with hroot | hlast
    · have : decide (mountTarget ≠ "/".toList) = false := by simpa using hroot
      rw [this, Bool.false_and]
    · have : strings.HasSuffix mountTarget "/".toList = false := by
        cases h : strings.HasSuffix mountTarget "/".toList
        · rfl
        · exact absurd (hsuf.1 h) hlast
      rw [this, Bool.and_false]

/-- The result of `Put` when every check passes. -/
theorem Put_of_checks (mm : MountMap β π) (stat : os.StatFn)
    (mountTarget mountSource fsType : GoString) (fsParams : π)
    (ht : mountTarget.head? = some '/' ∧
      (mountTarget = "/".toList ∨ mountTarget.getLast? ≠ some '/'))
    (hs : path.IsAbs mountSource = true) (hd : stat mountSource = .ok ⟨true⟩) :
    Put mm stat mountTarget mountSource fsType fsParams =
      (((GoMap.get mm.m mountTarget).isSome, none),
        { mm with m := GoMap.set mm.m mountTarget (mm.fsf.New mountSource fsType fsParams) }) := by
  obtain ⟨h1, h2⟩ := (Put_target_checks mountTarget).2 ht
  unfold Put
  rw [if_neg (by rw [h1]; decide), if_neg (by rw [h2]; decide), if_neg (by rw [hs]; decide), hd]
  rfl

/-- A `Put` that returns no error passed every check. -/
theorem Put_checks_of_ok (mm : MountMap β π) (stat : os.StatFn)
    (mountTarget mountSource fsType : GoString) (fsParams : π)
    (hok : (Put mm stat mountTarget mountSource fsType fsParams).1.2 = none) :
    (mountTarget.head? = some '/' ∧
      (mountTarget = "/".toList ∨ mountTarget.getLast? ≠ some '/')) ∧
    path.IsAbs mountSource = true ∧ stat mountSource = .ok ⟨true⟩ := by
  rw [← Put_target_checks]
  unfold Put at hok
  split_ifs at hok with h1 h2 h3
  cases hst : stat mountSource with
  | error err => rw [hst] at hok; simp at hok
  | ok fi =>
    rw [hst] at hok
    obtain ⟨d⟩ := fi
    cases d with
    | false => simp at hok
    | true =>
      refine ⟨⟨?_, ?_⟩, ?_, rfl⟩
      · simpa using h1
      · simpa using h2
      · simpa using h3

/-- A `Put` that returns an error leaves the table as it was and returns the
flag `false`. -/
theorem Put_of_error (mm : MountMap β π) (stat : os.StatFn)
    (mountTarget mountSource fsType : GoString) (fsParams : π)
    (herr : (Put mm stat mountTarget mountSource fsType fsParams).1.2 ≠ none) :
    (Put mm stat mountTarget mountSource fsType fsParams).2 = mm ∧
    (Put mm stat mountTarget mountSource fsType fsParams).1.1 = false := by
  unfold Put at herr ⊢
  split_ifs at herr ⊢ with h1 h2 h3
  · exact ⟨rfl, rfl⟩
  · exact ⟨rfl, rfl⟩
  · exact ⟨rfl, rfl⟩
  · cases hst : stat mountSource with
    | error err => exact ⟨rfl, rfl⟩
    | ok fi =>
      rw [hst] at herr
      obtain ⟨d⟩ := fi
      cases d with
      | false => exact ⟨rfl, rfl⟩
      | true => simp at herr

/-! ## Tables a program can hold -/

/-- Every target of a reachable table passed the checks of `Put`. -/
theorem Reachable.targets_checked {mm : MountMap β π} (hr : Reachable mm) :
    ∀ t ∈ mm.Targets, t.head? = some '/' ∧ (t = "/".toList ∨ t.getLast? ≠ some '/') := by
  induction hr with
  | new fsf =>
    intro t ht
    simp [Targets_eq, NewMountMap] at ht
  | put mm stat mountTarget mountSource fsType fsParams _ ih =>
    intro t ht
    cases herr : (Put mm stat mountTarget mountSource fsType fsParams).1.2 with
    | some e =>
      have := (Put_of_error mm stat mountTarget mountSource fsType fsParams
        (by rw [herr]; exact Option.some_ne_none e)).1
      rw [this] at ht
      exact ih t ht
    | none =>
      obtain ⟨hc, hs, hd⟩ := Put_checks_of_ok mm stat mountTarget mountSource fsType fsParams herr
      rw [Put_of_checks mm stat mountTarget mountSource fsType fsParams hc hs hd, Targets_eq] at ht
      rcases (GoMap.mem_keys_set _ _ _ _).1 ht with rfl | hold
      · exact hc
      · exact ih t (by rw [Targets_eq]; exact hold)
  | delete mm mountTarget _ ih =>
    intro t ht
    rw [Targets_eq] at ht
    have := ((GoMap.mem_keys_delete _ _ _).1 ht).2
    exact ih t (by rw [Targets_eq]; exact this)
  | reorder mm m' _ hperm ih =>
    intro t ht
    rw [Targets_eq] at ht
    have := (hperm.map Prod.fst).mem_iff.1 ht
    exact ih t (by rw [Targets_eq]; exact this)

/-- The keys of a reachable table are distinct. -/
theorem Reachable.wf {mm : MountMap β π} (hr : Reachable mm) : mm.WF := by
  induction hr with
  | new fsf => exact List.nodup_nil
  | put mm stat mountTarget mountSource fsType fsParams _ ih =>
    cases herr : (Put mm stat mountTarget mountSource fsType fsParams).1.2 with
    | some e =>
      rw [(Put_of_error mm stat mountTarget mountSource fsType fsParams
        (by rw [herr]; exact Option.some_ne_none e)).1]
      exact ih
    | none =>
      obtain ⟨hc, hs, hd⟩ := Put_checks_of_ok mm stat mountTarget mountSource fsType fsParams herr
      rw [Put_of_checks mm stat mountTarget mountSource fsType fsParams hc hs hd]
      exact GoMap.nodup_keys_set _ _ _ ih
  | delete mm mountTarget _ ih => exact GoMap.nodup_keys_delete _ _ ih
  | reorder mm m' _ hperm ih => exact (hperm.map Prod.fst).nodup_iff.2 ih

/-- No target of a reachable table is the empty string. -/
theorem Reachable.target_ne_nil {mm : MountMap β π} (hr : Reachable mm) {t : GoString}
    (ht : t ∈ mm.Targets) : t ≠ [] := by
  rintro rfl
  have := (hr.targets_checked [] ht).1
  simp at this

/-! ## Dispatch: the claims -/

/-- C1: when some registered target is a prefix of the request path, the loop of
`ServeHTTP` ends with `mountTarget = S` and `maxMountTargetLen = len(S)` where `S`
is a registered target, a prefix of the path, and no registered prefix of the
path is longer.  In particular, for registered `T1`, `T2` with `T1` a strict
prefix of `T2` and a path that has `T2` as prefix, the selected `S` is not `T1`
and is at least as long as `T2`, and the request is answered through `S`: it is
forwarded to the backend stored under `S`, or, when the path is exactly `S`,
redirected to `S + "/"`. -/
theorem ServeHTTP_selects_longest (mm : MountMap β π) (urlPath T2 : GoString)
    (hreg : T2 ∈ mm.Targets) (hpre : strings.HasPrefix urlPath T2 = true) :
    ∃ S : GoString, ServeHTTP.select mm urlPath = (S.length, S) ∧ S ∈ mm.Targets ∧
      strings.HasPrefix urlPath S = true ∧
      (∀ t ∈ mm.Targets, strings.HasPrefix urlPath t = true → t.length ≤ S.length) ∧
      ∀ T1 ∈ mm.Targets, strings.HasPrefix T2 T1 = true → T1 ≠ T2 →
        S ≠ T1 ∧ T2.length ≤ S.length ∧
        ∃ fs, GoMap.get mm.m S = some fs ∧
          ((ServeHTTP mm urlPath = .redirect (S ++ "/".toList) ∧ urlPath = S) ∨
            ∃ p, ServeHTTP mm urlPath = .serve fs p) := by
  obtain ⟨S, hsel, hS, hSp, hSmax⟩ := ServeHTTP.select_spec mm urlPath T2 hreg hpre
  refine ⟨S, hsel, hS, hSp, hSmax, ?_⟩
  intro T1 _ h12 hne
  have hlt : T1.length < T2.length := by
    have hpfx := (strings.HasPrefix_iff _ _).1 h12
    rcases Nat.lt_or_ge T1.length T2.length with h | h
    · exact h
    · exact absurd (hpfx.eq_of_length (le_antisymm hpfx.length_le h)) hne
  have hle : T2.length ≤ S.length := hSmax T2 hreg hpre
  have hSne : S ≠ [] := by
    intro h
    rw [h, List.length_nil] at hle
    omega
  refine ⟨?_, hle, ?_⟩
  · rintro rfl
    omega
  · obtain ⟨fs, hfs, hresp⟩ := ServeHTTP_of_longest mm urlPath S hS hSp hSmax hSne
    refine ⟨fs, hfs, ?_⟩
    rw [hresp]
    by_cases hroot : S = "/".toList
    · exact Or.inr ⟨urlPath, by rw [if_pos hroot]⟩
    · by_cases hdrop : urlPath.drop S.length = []
      · left
        refine ⟨by rw [if_neg hroot, if_pos hdrop], ?_⟩
        have hpfx := (strings.HasPrefix_iff _ _).1 hSp
        have hlen : urlPath.length ≤ S.length := by
          have := congrArg List.length hdrop
          rw [List.length_drop, List.length_nil] at this
          omega
        exact (hpfx.eq_of_length (le_antisymm hpfx.length_le hlen)).symm
      · exact Or.inr ⟨_, by rw [if_neg hroot, if_neg hdrop]⟩

/-- C2: in a table built from `NewMountMap` by `Put` and `DeleteTarget`, let `T` be
the longest registered target that is a prefix of the request path, stored with
backend `fs`.  If `T` is `/`, the request is forwarded to `fs` with the path
unchanged; if `T` is not `/` and the path is `T` followed by a non-empty
remainder, the request is forwarded to `fs` with the path set to that
remainder. -/
theorem ServeHTTP_forwards_remainder (mm : MountMap β π) (hr : Reachable mm)
    (urlPath T : GoString) (hreg : T ∈ mm.Targets)
    (hpre : strings.HasPrefix urlPath T = true)
    (hmax : ∀ t ∈ mm.Targets, strings.HasPrefix urlPath t = true → t.length ≤ T.length) :
    ∃ fs, GoMap.get mm.m T = some fs ∧
      (T = "/".toList → ServeHTTP mm urlPath = .serve fs urlPath) ∧
      (T ≠ "/".toList → ∀ rest : GoString, rest ≠ [] → urlPath = T ++ rest →
        ServeHTTP mm urlPath = .serve fs rest) := by
  obtain ⟨fs, hfs, hresp⟩ :=
    ServeHTTP_of_longest mm urlPath T hreg hpre hmax (hr.target_ne_nil hreg)
  refine ⟨fs, hfs, ?_, ?_⟩
  · intro hroot
    rw [hresp, if_pos hroot]
  · intro hroot rest hrest hpath
    have hdrop : urlPath.drop T.length = rest := by
      rw [hpath, List.drop_left]
    rw [hresp, if_neg hroot, hdrop, if_neg hrest]

/-- The call of `http.Redirect` for a path that is a target: in a table built
from `NewMountMap` by `Put` and `DeleteTarget`, a request whose path is exactly
a registered target `T` other than `/` is answered by `http.Redirect` with the
url `T + "/"`; no backend is called. -/
theorem ServeHTTP_redirects_exact_target (mm : MountMap β π) (hr : Reachable mm)
    (T : GoString) (hreg : T ∈ mm.Targets) (hroot : T ≠ "/".toList) :
    ServeHTTP mm T = .redirect (T ++ "/".toList) ∧
    ∀ (fs : β) (p : GoString), ServeHTTP mm T ≠ .serve fs p := by
  have hself : strings.HasPrefix T T = true :=
    (strings.HasPrefix_iff _ _).2 (List.prefix_refl T)
  have hmax : ∀ t ∈ mm.Targets, strings.HasPrefix T t = true → t.length ≤ T.length :=
    fun t _ hp => ((strings.HasPrefix_iff _ _).1 hp).length_le
  obtain ⟨fs, _, hresp⟩ :=
    ServeHTTP_of_longest mm T T hreg hself hmax (hr.target_ne_nil hreg)
  have hred : ServeHTTP mm T = .redirect (T ++ "/".toList) := by
    rw [hresp, if_neg hroot, if_pos (List.drop_length T)]
  refine ⟨hred, ?_⟩
  intro fs' p h
  rw [hred] at h
  exact Response.noConfusion h

/-- C4: in a table built from `NewMountMap` by `Put` and `DeleteTarget`,
`ServeHTTP` answers 404 itself exactly when no registered target is a prefix of
the request path; when some registered target is a prefix, the request is
redirected or forwarded to a backend. -/
theorem ServeHTTP_not_found_iff (mm : MountMap β π) (hr : Reachable mm)
    (urlPath : GoString) :
    ((ServeHTTP mm urlPath = .notFound urlPath ∨
        ∃ t, ServeHTTP mm urlPath = .targetNotFound t) ↔
      ∀ t ∈ mm.Targets, strings.HasPrefix urlPath t = false) ∧
    ((∃ t ∈ mm.Targets, strings.HasPrefix urlPath t = true) →
      (∃ location, ServeHTTP mm urlPath = .redirect location) ∨
        ∃ fs p, ServeHTTP mm urlPath = .serve fs p) := by
  have hmatch : (∃ t ∈ mm.Targets, strings.HasPrefix urlPath t = true) →
      (∃ location, ServeHTTP mm urlPath = .redirect location) ∨
        ∃ fs p, ServeHTTP mm urlPath = .serve fs p := by
    rintro ⟨t, ht, hp⟩
    obtain ⟨S, _, hS, hSp, hSmax⟩ := ServeHTTP.select_spec mm urlPath t ht hp
    obtain ⟨fs, _, hresp⟩ :=
      ServeHTTP_of_longest mm urlPath S hS hSp hSmax (hr.target_ne_nil hS)
    rw [hresp]
    split_ifs
    · exact Or.inr ⟨fs, _, rfl⟩
    · exact Or.inl ⟨_, rfl⟩
    · exact Or.inr ⟨fs, _, rfl⟩
  refine ⟨⟨?_, ?_⟩, hmatch⟩
  · intro h404 t ht
    cases hp : strings.HasPrefix urlPath t with
    | false => rfl
    | true =>
      exfalso
      rcases hmatch ⟨t, ht, hp⟩ with ⟨loc, hloc⟩ | ⟨fs, p, hfs⟩
      · rw [hloc] at h404
        rcases h404 with h | ⟨_, h⟩ <;> exact Response.noConfusion h
      · rw [hfs] at h404
        rcases h404 with h | ⟨_, h⟩ <;> exact Response.noConfusion h
  · intro hno
    left
    rw [ServeHTTP_of_select mm urlPath (ServeHTTP.select_none mm urlPath hno), if_pos rfl]

/-- The scenario table is reachable: it is built by two calls of `Put`. -/
theorem docsTable_reachable : Reachable docsTable :=
  Reachable.put _ _ _ _ _ _ (Reachable.put _ _ _ _ _ _ (Reachable.new _))

/-- C1 at the scenario: `/` and `/docs` are mounted and the path is
`/docs/readme.txt`. -/
theorem ServeHTTP_selects_longest_witness :
    "/docs".toList ∈ docsTable.Targets ∧
    strings.HasPrefix "/docs/readme.txt".toList "/docs".toList = true ∧
    ∃ S : GoString,
      ServeHTTP.select docsTable "/docs/readme.txt".toList = (S.length, S) ∧
      S ∈ docsTable.Targets ∧
      strings.HasPrefix "/docs/readme.txt".toList S = true ∧
      (∀ t ∈ docsTable.Targets,
        strings.HasPrefix "/docs/readme.txt".toList t = true → t.length ≤ S.length) ∧
      ∀ T1 ∈ docsTable.Targets, strings.HasPrefix "/docs".toList T1 = true →
        T1 ≠ "/docs".toList →
        S ≠ T1 ∧ "/docs".toList.length ≤ S.length ∧
        ∃ fs, GoMap.get docsTable.m S = some fs ∧
          ((ServeHTTP docsTable "/docs/readme.txt".toList = .redirect (S ++ "/".toList) ∧
              "/docs/readme.txt".toList = S) ∨
            ∃ p, ServeHTTP docsTable "/docs/readme.txt".toList = .serve fs p) :=
  ⟨by decide, by decide,
    ServeHTTP_selects_longest docsTable "/docs/readme.txt".toList "/docs".toList
      (by decide) (by decide)⟩

/-- C2 at the scenario: `/docs/readme.txt` reaches the backend of `/docs` as
`/readme.txt`, and `/other.txt` reaches the backend of `/` unchanged. -/
theorem ServeHTTP_forwards_remainder_witness :
    (Reachable docsTable ∧ "/docs".toList ∈ docsTable.Targets ∧
      strings.HasPrefix "/docs/readme.txt".toList "/docs".toList = true ∧
      (∀ t ∈ docsTable.Targets,
        strings.HasPrefix "/docs/readme.txt".toList t = true →
          t.length ≤ "/docs".toList.length)) ∧
    (∃ fs, GoMap.get docsTable.m "/docs".toList = some fs ∧
      ("/docs".toList = "/".toList →
        ServeHTTP docsTable "/docs/readme.txt".toList
          = .serve fs "/docs/readme.txt".toList) ∧
      ("/docs".toList ≠ "/".toList → ∀ rest : GoString, rest ≠ [] →
        "/docs/readme.txt".toList = "/docs".toList ++ rest →
        ServeHTTP docsTable "/docs/readme.txt".toList = .serve fs rest)) ∧
    ServeHTTP docsTable "/docs/readme.txt".toList
      = .serve "/srv/b".toList "/readme.txt".toList ∧
    ServeHTTP docsTable "/other.txt".toList
      = .serve "/srv/a".toList "/other.txt".toList :=
  ⟨⟨docsTable_reachable, by decide, by decide, by decide⟩,
    ServeHTTP_forwards_remainder docsTable docsTable_reachable
      "/docs/readme.txt".toList "/docs".toList (by decide) (by decide) (by decide),
    by decide, by decide⟩

/-- C4 at a table that mounts `/static` only: `/other.txt` is answered 404, as no
target is a prefix of it. -/
theorem ServeHTTP_not_found_iff_witness :
    Reachable staticTable ∧
    (∀ t ∈ staticTable.Targets, strings.HasPrefix "/other.txt".toList t = false) ∧
    (ServeHTTP staticTable "/other.txt".toList = .notFound "/other.txt".toList ∨
      ∃ t, ServeHTTP staticTable "/other.txt".toList = .targetNotFound t) :=
  ⟨Reachable.put _ _ _ _ _ _ (Reachable.new _), by decide,
    (ServeHTTP_not_found_iff staticTable (Reachable.put _ _ _ _ _ _ (Reachable.new _))
      "/other.txt".toList).1.2 (by decide)⟩

/-! ## Put and DeleteTarget: the claims -/

/-- C5: when `Put(target, source, type, params)` returns no error, the flag it
returns is `true` exactly when `target` was registered before the call;
afterwards `target` is registered with the handle the factory built for
`source`, so that `GetSource(target)` is `source` when that handle reports
`source` as its root; every other target keeps its handle, its source and its
registration. -/
theorem Put_registers_target [fileserver.Server β] (mm : MountMap β π) (stat : os.StatFn)
    (mountTarget mountSource fsType : GoString) (fsParams : π)
    (hok : (Put mm stat mountTarget mountSource fsType fsParams).1.2 = none) :
    ((Put mm stat mountTarget mountSource fsType fsParams).1.1 = true ↔
      mountTarget ∈ mm.Targets) ∧
    mountTarget ∈ (Put mm stat mountTarget mountSource fsType fsParams).2.Targets ∧
    GoMap.get (Put mm stat mountTarget mountSource fsType fsParams).2.m mountTarget
      = some (mm.fsf.New mountSource fsType fsParams) ∧
    (fileserver.Server.Root (mm.fsf.New mountSource fsType fsParams) = mountSource →
      (Put mm stat mountTarget mountSource fsType fsParams).2.GetSource mountTarget
        = mountSource) ∧
    ∀ t : GoString, t ≠ mountTarget →
      GoMap.get (Put mm stat mountTarget mountSource fsType fsParams).2.m t
        = GoMap.get mm.m t ∧
      (Put mm stat mountTarget mountSource fsType fsParams).2.GetSource t
        = mm.GetSource t ∧
      (t ∈ (Put mm stat mountTarget mountSource fsType fsParams).2.Targets ↔
        t ∈ mm.Targets) := by
  obtain ⟨hc, hs, hd⟩ := Put_checks_of_ok mm stat mountTarget mountSource fsType fsParams hok
  rw [Put_of_checks mm stat mountTarget mountSource fsType fsParams hc hs hd]
  simp only [Targets_eq, GetSource]
  refine ⟨?_, ?_, ?_, ?_, ?_⟩
  · exact GoMap.get_isSome_iff _ _
  · exact (GoMap.mem_keys_set _ _ _ _).2 (Or.inl rfl)
  · exact GoMap.get_set_self _ _ _
  · intro hroot
    rw [GoMap.get_set_self]
    exact hroot
  · intro t hne
    refine ⟨GoMap.get_set_ne _ _ _ hne, ?_, ?_⟩
    · rw [GoMap.get_set_ne _ _ _ hne]
    · rw [GoMap.mem_keys_set]
      exact ⟨fun h => h.elim (fun h' => absurd h' hne) id, Or.inr⟩

/-- C5 at the scenario: `/static` is mounted on `/srv/www`, then put again with
`/srv/www2`; the second call reports that the target existed and `GetSource`
gives `/srv/www2`. -/
theorem Put_registers_target_witness :
    (Put staticTable dirStat "/static".toList "/srv/www2".toList "local".toList ()).1
      = (true, none) ∧
    (Put staticTable dirStat "/static".toList "/srv/www2".toList "local".toList ()).2.GetSource
      "/static".toList = "/srv/www2".toList ∧
    "/static".toList ∈ staticTable.Targets :=
  ⟨by decide,
    (Put_registers_target staticTable dirStat "/static".toList "/srv/www2".toList
      "local".toList () (by decide)).2.2.2.1 rfl,
    by decide⟩

/-- C6: the error of `Put` is decided in this order.  It is `ErrInvalidMountTarget`
exactly when the target does not begin with `/`, or is not `/` and ends with
`/`, whatever the source and the file system are.  For a target that passes,
it is `ErrInvalidMountSource` when the source is not an absolute path; for an
absolute source it is a `MountSourcePermError` when `os.Stat` fails (carrying
that failure) or the source is not a directory; and when the source is a
directory there is no error. -/
theorem Put_error_order (mm : MountMap β π) (stat : os.StatFn)
    (mountTarget mountSource fsType : GoString) (fsParams : π) :
    ((Put mm stat mountTarget mountSource fsType fsParams).1.2
        = some .ErrInvalidMountTarget ↔
      (mountTarget.head? ≠ some '/' ∨
        (mountTarget ≠ "/".toList ∧ mountTarget.getLast? = some '/'))) ∧
    ((mountTarget.head? = some '/' ∧
        (mountTarget = "/".toList ∨ mountTarget.getLast? ≠ some '/')) →
      (path.IsAbs mountSource = false →
        (Put mm stat mountTarget mountSource fsType fsParams).1.2
          = some .ErrInvalidMountSource) ∧
      (path.IsAbs mountSource = true →
        (∀ err, stat mountSource = .error err →
          (Put mm stat mountTarget mountSource fsType fsParams).1.2
            = some (.MountSourcePermError err)) ∧
        (stat mountSource = .ok ⟨false⟩ →
          (Put mm stat mountTarget mountSource fsType fsParams).1.2
            = some (.MountSourcePermError (mountSource ++ ": not a directory".toList))) ∧
        (stat mountSource = .ok ⟨true⟩ →
          (Put mm stat mountTarget mountSource fsType fsParams).1.2 = none))) := by
  have hchk := Put_target_checks mountTarget
  have hfwd : (mountTarget.head? = some '/' ∧
        (mountTarget = "/".toList ∨ mountTarget.getLast? ≠ some '/')) →
      (path.IsAbs mountSource = false →
        (Put mm stat mountTarget mountSource fsType fsParams).1.2
          = some .ErrInvalidMountSource) ∧
      (path.IsAbs mountSource = true →
        (∀ err, stat mountSource = .error err →
          (Put mm stat mountTarget mountSource fsType fsParams).1.2
            = some (.MountSourcePermError err)) ∧
        (stat mountSource = .ok ⟨false⟩ →
          (Put mm stat mountTarget mountSource fsType fsParams).1.2
            = some (.MountSourcePermError (mountSource ++ ": not a directory".toList))) ∧
        (stat mountSource = .ok ⟨true⟩ →
          (Put mm stat mountTarget mountSource fsType fsParams).1.2 = none)) := by
    intro hvalid
    obtain ⟨h1, h2⟩ := hchk.2 hvalid
    refine ⟨?_, ?_⟩
    · intro habs
      unfold Put
      rw [if_neg (by rw [h1]; decide), if_neg (by rw [h2]; decide),
        if_pos (by rw [habs]; rfl)]
    · intro habs
      refine ⟨?_, ?_, ?_⟩
      · intro err hst
        unfold Put
        rw [if_neg (by rw [h1]; decide), if_neg (by rw [h2]; decide),
          if_neg (by rw [habs]; decide), hst]
      · intro hst
        unfold Put
        rw [if_neg (by rw [h1]; decide), if_neg (by rw [h2]; decide),
          if_neg (by rw [habs]; decide), hst]
        rfl
      · intro hst
        rw [Put_of_checks mm stat mountTarget mountSource fsType fsParams hvalid habs hst]
  refine ⟨⟨?_, ?_⟩, hfwd⟩
  · intro herr
    by_contra hgood
    have hvalid : mountTarget.head? = some '/' ∧
        (mountTarget = "/".toList ∨ mountTarget.getLast? ≠ some '/') := by
      constructor
      · by_contra h; exact hgood (Or.inl h)
      · by_cases hroot : mountTarget = "/".toList
        · exact Or.inl hroot
        · exact Or.inr (fun hlast => hgood (Or.inr ⟨hroot, hlast⟩))
    obtain ⟨hrel, habs⟩ := hfwd hvalid
    cases hs : path.IsAbs mountSource with
    | false =>
      rw [hrel hs] at herr
      exact absurd herr (by decide)
    | true =>
      obtain ⟨he, hf, hd⟩ := habs hs
      cases hst : stat mountSource with
      | error err =>
        rw [he err hst] at herr
        simp at herr
      | ok fi =>
        obtain ⟨d⟩ := fi
        cases d with
        | false =>
          rw [hf hst] at herr
          simp at herr
        | true =>
          rw [hd hst] at herr
          simp at herr
  · intro hbad
    have hnot : ¬ (mountTarget.head? = some '/' ∧
        (mountTarget = "/".toList ∨ mountTarget.getLast? ≠ some '/')) := by
      rintro ⟨hh, hl⟩
      rcases hbad with h | ⟨hroot, hlast⟩
      · exact h hh
      · exact hl.elim hroot (fun h => h hlast)
    rw [← hchk] at hnot
    unfold Put
    by_cases h1 : (!strings.HasPrefix mountTarget "/".toList) = true
    · rw [if_pos h1]
    · rw [if_neg h1]
      by_cases h2 : (decide (mountTarget ≠ "/".toList) &&
          strings.HasSuffix mountTarget "/".toList) = true
      · rw [if_pos h2]
      · exact absurd ⟨by simpa using h1, by simpa using h2⟩ hnot

/-- C6 at the scenario: `Put("relative/path", "/abs/src", ...)` fails with
`ErrInvalidMountTarget`, the target having no leading `/`. -/
theorem Put_error_order_witness :
    (Put (NewMountMap rootFactory) dirStat "relative/path".toList "/abs/src".toList
      "local".toList ()).1.2 = some .ErrInvalidMountTarget :=
  (Put_error_order (NewMountMap rootFactory) dirStat "relative/path".toList
    "/abs/src".toList "local".toList ()).1.2 (Or.inl (by decide))

/-- C7: `DeleteTarget(target)` returns `true` exactly when `target` was
registered before the call; afterwards `GetSource(target)` is `""` and
`Targets()` does not contain `target`; every other target keeps its handle,
its source and its registration; and when `target` was not registered the
table is unchanged and the flag is `false`. -/
theorem DeleteTarget_removes_only_target [fileserver.Server β] (mm : MountMap β π)
    (mountTarget : GoString) :
    ((DeleteTarget mm mountTarget).1 = true ↔ mountTarget ∈ mm.Targets) ∧
    (DeleteTarget mm mountTarget).2.GetSource mountTarget = [] ∧
    mountTarget ∉ (DeleteTarget mm mountTarget).2.Targets ∧
    (∀ t : GoString, t ≠ mountTarget →
      GoMap.get (DeleteTarget mm mountTarget).2.m t = GoMap.get mm.m t ∧
      (DeleteTarget mm mountTarget).2.GetSource t = mm.GetSource t ∧
      (t ∈ (DeleteTarget mm mountTarget).2.Targets ↔ t ∈ mm.Targets)) ∧
    (mountTarget ∉ mm.Targets →
      (DeleteTarget mm mountTarget).2 = mm ∧ (DeleteTarget mm mountTarget).1 = false) := by
  simp only [Targets_eq, GetSource, DeleteTarget]
  refine ⟨?_, ?_, ?_, ?_, ?_⟩
  · exact GoMap.get_isSome_iff _ _
  · rw [GoMap.get_delete_self]
  · rw [GoMap.mem_keys_delete]
    exact fun h => h.1 rfl
  · intro t hne
    refine ⟨GoMap.get_delete_ne _ _ hne, ?_, ?_⟩
    · rw [GoMap.get_delete_ne _ _ hne]
    · rw [GoMap.mem_keys_delete]
      exact ⟨fun h => h.2, fun h => ⟨hne, h⟩⟩
  · intro habs
    refine ⟨?_, ?_⟩
    · rw [GoMap.delete_of_not_mem _ _ habs]
    · rw [← Bool.not_eq_true, GoMap.get_isSome_iff]
      exact habs

/-- C8: in every table built from `NewMountMap` by calls of `Put` (failing or
not) and `DeleteTarget`, each registered target is non-empty, begins with `/`,
and is `/` itself or does not end with `/`. -/
theorem Reachable_targets_well_formed (mm : MountMap β π) (hr : Reachable mm) :
    ∀ t ∈ mm.Targets,
      t ≠ [] ∧ t.head? = some '/' ∧ (t = "/".toList ∨ t.getLast? ≠ some '/') :=
  fun t ht => ⟨hr.target_ne_nil ht, hr.targets_checked t ht⟩

/-- C8 at the scenario table, which two calls of `Put` build. -/
theorem Reachable_targets_well_formed_witness :
    Reachable docsTable ∧
    ∀ t ∈ docsTable.Targets,
      t ≠ [] ∧ t.head? = some '/' ∧ (t = "/".toList ∨ t.getLast? ≠ some '/') :=
  ⟨docsTable_reachable, Reachable_targets_well_formed docsTable docsTable_reachable⟩

end MountMap

/-! ## Locking: the claims -/

namespace sync

/-- `Lock` is granted only when no lock is held, and while the write lock is
held neither `RLock` nor `Lock` is granted: a holder of the write lock
excludes readers and writers. -/
theorem RWMutex.write_lock_excludes (mu : RWMutex) :
    (∀ mu', mu.step .Lock = some mu' →
      mu.readers = 0 ∧ mu.writer = false ∧ mu'.writer = true) ∧
    (mu.writer = true → mu.step .RLock = none ∧ mu.step .Lock = none) := by
  refine ⟨?_, ?_⟩
  · intro mu' h
    have h' : (if mu.readers = 0 ∧ mu.writer = false then
        some { mu with writer := true } else none) = some mu' := h
    by_cases hfree : mu.readers = 0 ∧ mu.writer = false
    · rw [if_pos hfree] at h'
      cases h'
      exact ⟨hfree.1, hfree.2, rfl⟩
    · rw [if_neg hfree] at h'
      cases h'
  · intro hw
    constructor
    · show (if mu.writer = false then _ else none) = none
      rw [if_neg (by rw [hw]; decide)]
    · show (if mu.readers = 0 ∧ mu.writer = false then _ else none) = none
      rw [if_neg (by rw [hw]; simp)]

/-- `RLock` is granted while other read locks are held. -/
theorem RWMutex.read_lock_shared (mu : RWMutex) (h : mu.writer = false) :
    mu.step .RLock = some { mu with readers := mu.readers + 1 } := by
  show (if mu.writer = false then _ else none) = _
  rw [if_pos h]

end sync

namespace MountMap

variable {β π : Type}

/-- `Put` writes the map only while it holds the write lock. -/
theorem Put_steps_hold_lock (mm : MountMap β π) (stat : os.StatFn)
    (mountTarget mountSource fsType : GoString) (fsParams : π) :
    writesHoldLock false (Put.steps mm stat mountTarget mountSource fsType fsParams) = true := by
  unfold Put.steps
  cases (Put mm stat mountTarget mountSource fsType fsParams).1.2 <;> rfl

/-- C9, the code at a failing input.  `DeleteTarget` writes the map without
holding the write lock: it takes `RLock`.  With one goroutine in `ServeHTTP` on
`/docs/readme.txt` and another in `DeleteTarget`, the schedule "first, second,
second" is granted by the mutex and reaches a state where two read locks are
held, the second goroutine is about to `delete` from the map and the first is
about to `range` over it. -/
theorem DeleteTarget_races_with_ServeHTTP :
    writesHoldLock false DeleteTarget.steps = false ∧
    ∃ s : Sys,
      Sys.run ⟨⟨0, false⟩,
        [ServeHTTP.steps docsTable "/docs/readme.txt".toList, DeleteTarget.steps]⟩
        [0, 1, 1] = some s ∧
      s.mu = ⟨2, false⟩ ∧ s.next 1 = some .mapWrite ∧ s.next 0 = some .mapRead ∧
      s.raceAt 1 0 = true :=
  ⟨by decide,
    ⟨⟨2, false⟩, [[.mapRead, .mapRead, .RUnlock], [.mapWrite, .RUnlock]]⟩,
    by decide, by decide, by decide, by decide, by decide⟩

end MountMap

/-! ## The server pool: the claims -/

namespace ServerPool

/-- The loop of `Remove` passes over servers with another port. -/
theorem Remove.loop_skip (sp : ServerPool) (port : Nat) (pre rest : List Server)
    (hpre : ∀ x ∈ pre, x.Port ≠ port) :
    ∀ i : Nat, Remove.loop sp port i (pre ++ rest)
      = Remove.loop sp port (i + pre.length) rest := by
  induction pre with
  | nil => intro i; rfl
  | cons x xs ih =>
    intro i
    have hx : x.Port ≠ port := hpre x (List.mem_cons_self _ _)
    have hxs : ∀ y ∈ xs, y.Port ≠ port := fun y hy => hpre y (List.mem_cons_of_mem _ hy)
    rw [List.cons_append, Remove.loop, if_pos hx, ih hxs (i + 1), List.length_cons]
    congr 1
    omega

/-- `Remove` when no server has the port: `(false, nil)` and the pool as it
was. -/
theorem Remove_of_absent (sp : ServerPool) (port : Nat)
    (habs : ∀ x ∈ sp.Srvs, x.Port ≠ port) :
    Remove sp port = .returns ((false, none), sp) := by
  unfold Remove
  have := Remove.loop_skip sp port sp.Srvs [] habs 0
  rw [List.append_nil] at this
  rw [this]
  rfl

/-- `Remove` when `srv` is the first server with the port: the outcome is decided
by `srv.Close()`. -/
theorem Remove_of_first (sp : ServerPool) (port : Nat) (pre post : List Server)
    (srv : Server) (hsrvs : sp.Srvs = pre ++ srv :: post)
    (hpre : ∀ x ∈ pre, x.Port ≠ port) (hport : srv.Port = port) :
    Remove sp port =
      match srv.Close with
      | .panics => .panics
      | .returns (some err) => .returns ((false, some err), sp)
      | .returns none => .returns ((true, none), { sp with Srvs := pre ++ post }) := by
  unfold Remove
  rw [hsrvs, Remove.loop_skip sp port pre (srv :: post) hpre 0, Remove.loop,
    if_neg (by rw [hport]; exact fun h => h rfl), hsrvs]
  have htake : (pre ++ srv :: post).take (0 + pre.length) = pre := by
    rw [Nat.zero_add, List.take_left]
  have hdrop : (pre ++ srv :: post).drop (0 + pre.length + 1) = post := by
    have : pre ++ srv :: post = (pre ++ [srv]) ++ post := by simp
    rw [this, Nat.zero_add]
    have hlen : pre.length + 1 = (pre ++ [srv]).length := by simp
    rw [hlen, List.drop_left]
  rw [htake, hdrop]

/-- C10, the code at a failing input.  After `Add(":8080")` on a new pool the
server is registered with port 0 and a nil listener; `Remove(0)` finds it and
calls `Close` on it, which dereferences the nil listener: the call panics
instead of returning. -/
theorem Remove_panics_on_unstarted_server :
    addedPool.Srvs = [NewServer ":8080".toList] ∧
    Get addedPool 0 = some (NewServer ":8080".toList) ∧
    Remove addedPool 0 = .panics :=
  ⟨by decide, by decide, by decide⟩

end ServerPool

/-! ## The pool built by Add and Remove -/

namespace ServerPool

/-- A call of `Remove` that returns leaves no server in the pool that was not
in it before. -/
theorem Remove.loop_subset (sp : ServerPool) (port : Nat) (rest : List Server) :
    ∀ (i : Nat) (r : (Bool × Option GoString) × ServerPool),
      Remove.loop sp port i rest = .returns r → ∀ s ∈ r.2.Srvs, s ∈ sp.Srvs := by
  induction rest with
  | nil =>
    intro i r h s hs
    rw [Remove.loop] at h
    cases h
    exact hs
  | cons srv rest ih =>
    intro i r h s hs
    rw [Remove.loop] at h
    by_cases hp : srv.Port ≠ port
    · rw [if_pos hp] at h
      exact ih (i + 1) r h s hs
    · rw [if_neg hp] at h
      cases hc : srv.Close with
      | panics => rw [hc] at h; cases h
      | returns e =>
        rw [hc] at h
        cases e with
        | some err => cases h; exact hs
        | none =>
          cases h
          rcases List.mem_append.1 hs with h1 | h1
          · exact List.mem_of_mem_take h1
          · exact List.mem_of_mem_drop h1

/-- The slice that a call of `Remove` leaves is the slice before it with at most
one server taken out. -/
theorem Remove.loop_sublist (sp : ServerPool) (port : Nat) (rest : List Server) :
    ∀ (i : Nat) (r : (Bool × Option GoString) × ServerPool),
      Remove.loop sp port i rest = .returns r → r.2.Srvs.Sublist sp.Srvs := by
  induction rest with
  | nil =>
    intro i r h
    rw [Remove.loop] at h
    cases h
    exact List.Sublist.refl _
  | cons srv rest ih =>
    intro i r h
    rw [Remove.loop] at h
    by_cases hp : srv.Port ≠ port
    · rw [if_pos hp] at h
      exact ih (i + 1) r h
    · rw [if_neg hp] at h
      cases hc : srv.Close with
      | panics => rw [hc] at h; cases h
      | returns e =>
        rw [hc] at h
        cases e with
        | some err => cases h; exact List.Sublist.refl _
        | none =>
          cases h
          show (sp.Srvs.take i ++ sp.Srvs.drop (i + 1)).Sublist sp.Srvs
          rw [← List.eraseIdx_eq_take_drop_succ]
          exact List.eraseIdx_sublist _ _

/-- What holds of every pool a program can hold when the operating system binds
no port twice: a server without listener has port 0, a listening server has
a port that is not 0, and two listening servers have different ports. -/
theorem Attainable.ports {free : ServerPool → Nat → Prop}
    (hfree : ∀ sp port, free sp port → ∀ s ∈ sp.Srvs, s.ln ≠ none → s.Port ≠ port)
    {sp : ServerPool} (h : Attainable free sp) :
    (∀ s ∈ sp.Srvs, (s.ln = none → s.Port = 0) ∧ (s.ln ≠ none → 0 < s.Port)) ∧
    sp.Srvs.Pairwise (fun a b => a.ln ≠ none → b.ln ≠ none → a.Port ≠ b.Port) := by
  induction h with
  | new => exact ⟨fun s hs => (by cases hs), List.Pairwise.nil⟩
  | add sp checkAddr addr _ ih =>
    unfold Add
    cases hc : checkAddr addr with
    | some err => exact ih
    | none =>
      refine ⟨?_, ?_⟩
      · intro s hs
        rcases List.mem_append.1 hs with h1 | h1
        · exact ih.1 s h1
        · rw [List.mem_singleton] at h1
          rw [h1]
          exact ⟨fun _ => rfl, fun hln => absurd rfl hln⟩
      · show (sp.Srvs ++ [NewServer addr]).Pairwise _
        rw [List.pairwise_append]
        refine ⟨ih.2, List.pairwise_singleton _ _, ?_⟩
        intro a _ b hb _ hbl
        rw [List.mem_singleton] at hb
        rw [hb] at hbl
        exact absurd rfl hbl
  | remove sp port r _ hr ih =>
    have hsub := Remove.loop_sublist sp port sp.Srvs 0 r hr
    exact ⟨fun s hs => ih.1 s (hsub.subset hs), ih.2.sublist hsub⟩
  | listen sp pre post s addr port ln _ hsrvs hln hpos hlt hfr ih =>
    have hport : (s.bound addr port ln).Port = port := Nat.mod_eq_of_lt hlt
    have hbln : (s.bound addr port ln).ln ≠ none := fun h => Option.noConfusion h
    have hold : ∀ x ∈ sp.Srvs, x.ln ≠ none → x.Port ≠ port := hfree sp port hfr
    rw [hsrvs] at ih hold
    obtain ⟨hmem, hpw⟩ := ih
    rw [List.pairwise_append, List.pairwise_cons] at hpw
    obtain ⟨hpre, ⟨_, hpost⟩, hcross⟩ := hpw
    refine ⟨?_, ?_⟩
    · intro x hx
      show (x.ln = none → x.Port = 0) ∧ (x.ln ≠ none → 0 < x.Port)
      rcases List.mem_append.1 hx with h1 | h1
      · exact hmem x (List.mem_append_left _ h1)
      · rcases List.mem_cons.1 h1 with h2 | h2
        · rw [h2]
          exact ⟨fun h => absurd h hbln, fun _ => (by rw [hport]; exact hpos)⟩
        · exact hmem x (List.mem_append_right _ (List.mem_cons_of_mem _ h2))
    · show (pre ++ s.bound addr port ln :: post).Pairwise _
      rw [List.pairwise_append, List.pairwise_cons]
      refine ⟨hpre, ⟨?_, hpost⟩, ?_⟩
      · intro b hb _ hbl
        rw [hport]
        exact Ne.symm (hold b (List.mem_append_right _ (List.mem_cons_of_mem _ hb)) hbl)
      · intro a ha b hb hal hbl
        rcases List.mem_cons.1 hb with h2 | h2
        · rw [h2, hport]
          exact hold a (List.mem_append_left _ ha) hal
        · exact hcross a ha b (List.mem_cons_of_mem _ h2) hal hbl

/-- C11, as the code has it: in every pool built from `NewServerPool` by calls of
`Add` and `Remove` and by registered servers starting to listen, the operating
system binding no port twice, a server that has not started to listen has
port 0, a listening server has a port that is not 0, the ports of the
listening servers are pairwise distinct, and two registered servers have the
same port only if neither has started to listen. -/
theorem Attainable_ports_unique_when_listening (free : ServerPool → Nat → Prop)
    (hfree : ∀ sp port, free sp port → ∀ s ∈ sp.Srvs, s.ln ≠ none → s.Port ≠ port)
    (sp : ServerPool) (h : Attainable free sp) :
    (∀ s ∈ sp.Srvs, s.ln = none → s.Port = 0) ∧
    (∀ s ∈ sp.Srvs, s.ln ≠ none → 0 < s.Port) ∧
    ((sp.Srvs.filter (fun s => s.ln.isSome)).map (fun s => s.Port)).Nodup ∧
    sp.Srvs.Pairwise (fun a b => a.Port = b.Port → a.ln = none ∧ b.ln = none) := by
  obtain ⟨hmem, hpw⟩ := Attainable.ports hfree h
  refine ⟨fun s hs => (hmem s hs).1, fun s hs => (hmem s hs).2, ?_, ?_⟩
  · rw [List.Nodup, List.pairwise_map]
    refine List.Pairwise.imp_of_mem ?_ (hpw.filter _)
    intro a b ha hb hR
    have hal : a.ln ≠ none := by
      have := (List.mem_filter.1 ha).2
      intro h
      rw [h] at this
      exact Bool.false_ne_true this
    have hbl : b.ln ≠ none := by
      have := (List.mem_filter.1 hb).2
      intro h
      rw [h] at this
      exact Bool.false_ne_true this
    exact hR hal hbl
  · refine List.Pairwise.imp_of_mem ?_ hpw
    intro a b ha hb hR heq
    by_cases hal : a.ln = none
    · by_cases hbl : b.ln = none
      · exact ⟨hal, hbl⟩
      · have h0 := (hmem a ha).1 hal
        have hp := (hmem b hb).2 hbl
        omega
    · by_cases hbl : b.ln = none
      · have h0 := (hmem b hb).1 hbl
        have hp := (hmem a ha).2 hal
        omega
      · exact absurd heq (hR hal hbl)

/-- The pool after two calls of `Add` is one a program can hold. -/
theorem twiceAddedPool_attainable : Attainable portFree twiceAddedPool :=
  Attainable.add _ _ _ (Attainable.add _ _ _ Attainable.new)

/-- The pool of two listening servers is one a program can hold: two calls of
`Add`, then the first server is bound to 8080 and the second to 8081. -/
theorem listeningPool_attainable : Attainable portFree listeningPool :=
  Attainable.listen
    { Srvs := [(NewServer ":8080".toList).bound "[::]:8080".toList 8080 okListener,
               NewServer ":8081".toList] }
    [(NewServer ":8080".toList).bound "[::]:8080".toList 8080 okListener] []
    (NewServer ":8081".toList) "[::]:8081".toList 8081 okListener
    (Attainable.listen twiceAddedPool [] [NewServer ":8081".toList]
      (NewServer ":8080".toList) "[::]:8080".toList 8080 okListener
      twiceAddedPool_attainable rfl rfl (by decide) (by decide)
      (show ∀ s ∈ twiceAddedPool.Srvs, s.ln ≠ none → s.Port ≠ 8080 from by decide))
    rfl rfl (by decide) (by decide)
    (show ∀ s ∈ [(NewServer ":8080".toList).bound "[::]:8080".toList 8080 okListener,
        NewServer ":8081".toList], s.ln ≠ none → s.Port ≠ 8081 from by decide)

/-- C11 at the pool of two listening servers: their ports, 8080 and 8081, are
distinct. -/
theorem Attainable_ports_unique_when_listening_witness :
    Attainable portFree listeningPool ∧
    ((listeningPool.Srvs.filter (fun s => s.ln.isSome)).map (fun s => s.Port)).Nodup ∧
    (listeningPool.Srvs.map (fun s => s.Port)) = [8080, 8081] :=
  ⟨listeningPool_attainable,
    (Attainable_ports_unique_when_listening portFree (fun _ _ h => h) listeningPool
      listeningPool_attainable).2.2.1,
    by decide⟩

/-- C11 as stated fails after `Add(":8080")` and `Add(":8081")`: the pool is
built by `Add` alone, and its two servers are different and have the same
port, 0, neither having started to listen. -/
theorem ports_not_unique_after_two_adds :
    Attainable portFree twiceAddedPool ∧
    twiceAddedPool.Srvs = [NewServer ":8080".toList, NewServer ":8081".toList] ∧
    NewServer ":8080".toList ≠ NewServer ":8081".toList ∧
    (NewServer ":8080".toList).Port = (NewServer ":8081".toList).Port ∧
    ¬ (twiceAddedPool.Srvs.map (fun s => s.Port)).Nodup :=
  ⟨twiceAddedPool_attainable, by decide, by decide, by decide, by decide⟩

end ServerPool

/-! ## StartSrv -/

namespace PoolRefs

/-- The loop of `StartSrv` comes to the send when it finds `s`, and returns
`false` otherwise. -/
theorem StartSrv.loop_eq (sp : PoolRefs) (receiving : Bool) (s : ServerPtr)
    (l : List ServerPtr) :
    StartSrv.loop sp receiving s l =
      if s ∈ l then
        if receiving then .returns (true, { sp with srvCh := sp.srvCh ++ [s] })
        else .blocks
      else .returns (false, sp) := by
  induction l with
  | nil => rfl
  | cons srv rest ih =>
    rw [StartSrv.loop]
    by_cases h : srv = s
    · have hmem : s ∈ srv :: rest := by rw [h]; exact List.mem_cons_self _ _
      rw [if_pos h, if_pos hmem]
    · rw [if_neg h, ih]
      by_cases hm : s ∈ rest
      · have hmem : s ∈ srv :: rest := List.mem_cons_of_mem _ hm
        rw [if_pos hm, if_pos hmem]
      · have hmem : s ∉ srv :: rest := by
          intro hmem
          rcases List.mem_cons.1 hmem with h1 | h1
          · exact h h1.symm
          · exact hm h1
        rw [if_neg hm, if_neg hmem]

/-- C12, as the code has it: `StartSrv(s)` returns `false`, the pool unchanged,
exactly when `s` is not among the pointers of `sp.Srvs` or the server is
already running.  Otherwise it comes to the send of `s` on `sp.srvCh`: when
the loop of `ListenAndRun` is receiving, `s` is handed over once and the call
returns `true`, the slice `sp.Srvs` and the servers being the same after the
call; when nobody is receiving, the call waits at the send and does not
return. -/
theorem StartSrv_hands_over_once (sp : PoolRefs) (receiving : Bool) (s : ServerPtr) :
    (StartSrv sp receiving s = .returns (false, sp) ↔
      (s ∉ sp.Srvs ∨ (sp.mem s).Running = true)) ∧
    (s ∈ sp.Srvs → (sp.mem s).Running = false → receiving = true →
      StartSrv sp receiving s = .returns (true, { sp with srvCh := sp.srvCh ++ [s] })) ∧
    (s ∈ sp.Srvs → (sp.mem s).Running = false → receiving = false →
      StartSrv sp receiving s = .blocks) ∧
    (∀ (flag : Bool) (sp' : PoolRefs), StartSrv sp receiving s = .returns (flag, sp') →
      sp'.Srvs = sp.Srvs ∧ sp'.mem = sp.mem ∧ sp'.pool = sp.pool ∧
      (flag = false → sp'.srvCh = sp.srvCh) ∧
      (flag = true → sp'.srvCh = sp.srvCh ++ [s])) := by
  unfold StartSrv
  by_cases hrun : (sp.mem s).Running = true
  · rw [if_pos hrun]
    refine ⟨⟨fun _ => Or.inr hrun, fun _ => rfl⟩, ?_, ?_, ?_⟩
    · intro _ hnot
      rw [hrun] at hnot
      exact absurd hnot (by decide)
    · intro _ hnot
      rw [hrun] at hnot
      exact absurd hnot (by decide)
    · intro flag sp' h
      cases h
      exact ⟨rfl, rfl, rfl, fun _ => rfl, fun h => (Bool.false_ne_true h).elim⟩
  · rw [if_neg hrun, StartSrv.loop_eq]
    by_cases hm : s ∈ sp.Srvs
    · rw [if_pos hm]
      cases receiving with
      | true =>
        refine ⟨⟨?_, ?_⟩, fun _ _ _ => rfl, ?_, ?_⟩
        · intro h
          have h' : SendOutcome.returns (true, ({ sp with srvCh := sp.srvCh ++ [s] } : PoolRefs))
              = SendOutcome.returns (false, sp) := h
          cases h'
        · rintro (h | h)
          · exact absurd hm h
          · exact absurd h hrun
        · intro _ _ h
          exact (Bool.false_ne_true h.symm).elim
        · intro flag sp' h
          have h' : SendOutcome.returns (true, ({ sp with srvCh := sp.srvCh ++ [s] } : PoolRefs))
              = SendOutcome.returns (flag, sp') := h
          cases h'
          exact ⟨rfl, rfl, rfl, fun h => (Bool.false_ne_true h.symm).elim, fun _ => rfl⟩
      | false =>
        refine ⟨⟨?_, ?_⟩, ?_, fun _ _ _ => rfl, ?_⟩
        · intro h
          have h' : (SendOutcome.blocks : SendOutcome (Bool × PoolRefs))
              = SendOutcome.returns (false, sp) := h
          cases h'
        · rintro (h | h)
          · exact absurd hm h
          · exact absurd h hrun
        · intro _ _ h
          exact (Bool.false_ne_true h).elim
        · intro flag sp' h
          have h' : (SendOutcome.blocks : SendOutcome (Bool × PoolRefs))
              = SendOutcome.returns (flag, sp') := h
          cases h'
    · rw [if_neg hm]
      refine ⟨⟨fun _ => Or.inl hm, fun _ => rfl⟩, fun h => absurd h hm,
        fun h => absurd h hm, ?_⟩
      intro flag sp' h
      cases h
      exact ⟨rfl, rfl, rfl, fun _ => rfl, fun h => (Bool.false_ne_true h).elim⟩

/-- C12 with the loop of `ListenAndRun` receiving: the registered server at the
address 1, which is not running, is handed over once and `StartSrv` returns
`true`. -/
theorem StartSrv_hands_over_once_witness :
    (1 ∈ idleRefs.Srvs ∧ (idleRefs.mem 1).Running = false) ∧
    StartSrv idleRefs true 1
      = .returns (true, { idleRefs with srvCh := idleRefs.srvCh ++ [1] }) :=
  ⟨⟨by decide, rfl⟩,
    (StartSrv_hands_over_once idleRefs true 1).2.1 (by decide) rfl rfl⟩

/-- C12 as stated fails on a pool whose run loop is not receiving: the server at
the address 1 is registered and not running, and `StartSrv` neither returns
`true` nor returns at all; it waits at the send on the channel. -/
theorem StartSrv_blocks_without_run_loop :
    1 ∈ idleRefs.Srvs ∧ (idleRefs.mem 1).Running = false ∧
    StartSrv idleRefs false 1 = .blocks ∧
    ∀ r : Bool × PoolRefs, StartSrv idleRefs false 1 ≠ .returns r :=
  ⟨by decide, rfl, rfl, fun r h => SendOutcome.noConfusion (h : SendOutcome.blocks = _)⟩

end PoolRefs

/-! ## removeServers -/

namespace ServerPool

/-- The array after the slice statements of `Remove`: when the slice is `pre`,
`srv`, `post` and the array goes on with `tail`, removing at the index of `srv`
leaves `pre`, `post`, a `nil` in the last place of the old slice, and `tail`:
the array holds the slice that `Remove` leaves in the pool, then `nil`. -/
theorem Remove.shift_of_first (pre post : List Server) (srv : Server)
    (tail : List (Option Server)) :
    Remove.shift ((pre ++ srv :: post).map some ++ tail) (pre ++ srv :: post).length pre.length
      = (pre ++ post).map some ++ none :: tail := by
  unfold Remove.shift
  have h1 : ((pre ++ srv :: post).map some ++ tail).take pre.length = pre.map some := by
    rw [List.map_append, List.append_assoc]
    have : pre.length = (pre.map some).length := by simp
    rw [this, List.take_left]
  have h2 : (((pre ++ srv :: post).map some ++ tail).drop (pre.length + 1)).take
          ((pre ++ srv :: post).length - (pre.length + 1)) = post.map some := by
    have e : (pre ++ srv :: post).map some ++ tail
        = (pre.map some ++ [some srv]) ++ (post.map some ++ tail) := by simp
    have l : pre.length + 1 = (pre.map some ++ [some srv]).length := by simp
    rw [e, l, List.drop_left]
    have l2 : (pre ++ srv :: post).length - (pre.map some ++ [some srv]).length
        = (post.map some).length := by simp; omega
    rw [l2, List.take_left]
  have h3 : ∃ y, ((pre ++ srv :: post).map some ++ tail).drop ((pre ++ srv :: post).length - 1)
      = y :: tail := by
    have hlen : (pre ++ srv :: post).length - 1 < ((pre ++ srv :: post).map some ++ tail).length := by
      simp; omega
    refine ⟨((pre ++ srv :: post).map some ++ tail)[(pre ++ srv :: post).length - 1], ?_⟩
    rw [List.drop_eq_getElem_cons hlen]
    congr 1
    have l3 : (pre ++ srv :: post).length - 1 + 1 = ((pre ++ srv :: post).map some).length := by simp; omega
    rw [l3, List.drop_left]
  obtain ⟨y, hy⟩ := h3
  rw [h1, h2, hy]
  have l4 : (pre ++ srv :: post).length - 1 = (pre.map some ++ post.map some).length := by simp
  rw [l4, List.set_append_right _ _ (le_refl _)]
  simp

/-- With no server in the pool `removeServers` answers 200. -/
theorem removeServers_empty : removeServers { Srvs := [] } = .returns (.ok, { Srvs := [] }) := by
  decide

/-- With one listening server whose `Close` succeeds `removeServers` removes it
and answers 200. -/
theorem removeServers_single (srv : Server) (ln : Listener) (hln : srv.ln = some ln)
    (hclose : ln.Close = none) :
    removeServers { Srvs := [srv] } = .returns (.ok, { Srvs := [] }) := by
  obtain ⟨addr, port, running, l⟩ := srv
  obtain ⟨c⟩ := ln
  simp only at hln hclose
  subst hln hclose
  simp [removeServers, removeServers.loop, Remove, Remove.loop, Server.Close, List.range,
    List.range.loop]

/-- C13, the code at a failing input.  The pool holds two listening servers, on
the ports 8080 and 8081, and each `Close` succeeds.  The loop of
`removeServers` runs over the slice it started with while `Remove` shifts the
array behind it: the first round removes the server on 8080 and leaves the
array as the server on 8081 followed by `nil`; the second round reads that
`nil` and `srv.Port` panics.  The server on 8081 is never passed to `Remove`
and stays registered. -/
theorem removeServers_panics_on_two_servers :
    (listeningPool.Srvs.map (fun s => s.Port)) = [8080, 8081] ∧
    (∀ s ∈ listeningPool.Srvs, s.Close = .returns none) ∧
    Remove listeningPool 8080
      = .returns ((true, none),
          { Srvs := [(NewServer ":8081".toList).bound "[::]:8081".toList 8081 okListener] }) ∧
    Remove.shift (listeningPool.Srvs.map some) 2 0
      = [some ((NewServer ":8081".toList).bound "[::]:8081".toList 8081 okListener), none] ∧
    removeServers listeningPool = .panics :=
  ⟨by decide, by decide, by decide, by decide, by decide⟩

end ServerPool

/-! ## The read lock of ServeHTTP -/

namespace MountMap

variable {β π : Type}

/-- The read locks held after `ServeHTTP` has run alone on a mutex whose write
lock is free: as many as before when the answer is a 404 or the request is
forwarded, one more when the answer is a redirect. -/
theorem ServeHTTP_steps_readers (mm : MountMap β π) (urlPath : GoString)
    (mu : sync.RWMutex) (hw : mu.writer = false) :
    mu.steps (ServeHTTP.steps mm urlPath) =
      some { mu with readers :=
        match ServeHTTP mm urlPath with
        | .redirect _ => mu.readers + 1
        | _ => mu.readers } := by
  obtain ⟨n, w⟩ := mu
  simp only at hw
  subst hw
  unfold ServeHTTP.steps
  cases ServeHTTP mm urlPath <;>
    simp [sync.RWMutex.steps, sync.RWMutex.step]

/-- C14, the code at a failing input.  On the table with `/` and `/docs` the
request for `/docs` is answered with a redirect, and `ServeHTTP` returns
without `RUnlock`: one read lock is held after the call, none before.  A
`Put` that comes next waits at `Lock`, and no goroutine can take a step. -/
theorem ServeHTTP_redirect_keeps_read_lock :
    ServeHTTP docsTable "/docs".toList = .redirect "/docs/".toList ∧
    sync.RWMutex.steps ⟨0, false⟩ (ServeHTTP.steps docsTable "/docs".toList)
      = some ⟨1, false⟩ ∧
    ∃ s : Sys,
      Sys.run ⟨⟨0, false⟩,
        [ServeHTTP.steps docsTable "/docs".toList,
          Put.steps docsTable dirStat "/new".toList "/srv/c".toList "local".toList ()]⟩
        [0, 0] = some s ∧
      s.goroutines = [[], [.Lock, .mapRead, .mapWrite, .Unlock]] ∧
      s.mu = ⟨1, false⟩ ∧
      ∀ i : Nat, s.step i = none :=
  ⟨by decide, by decide,
    ⟨⟨1, false⟩, [[], [.Lock, .mapRead, .mapWrite, .Unlock]]⟩,
    by decide, rfl, rfl,
    fun i => match i with
      | 0 => rfl
      | 1 => rfl
      | _ + 2 => rfl⟩

end MountMap

/-! ## The order of enumeration -/

namespace GoMap

variable {β : Type}

/-- In a map, that is with distinct keys, a lookup finds exactly the entries. -/
theorem get_eq_some_iff (m : List (GoString × β)) (hnd : (m.map Prod.fst).Nodup)
    (k : GoString) (v : β) : get m k = some v ↔ (k, v) ∈ m := by
  constructor
  · exact get_mem
  · intro hmem
    induction m with
    | nil => cases hmem
    | cons e rest ih =>
      obtain ⟨k0, v0⟩ := e
      rw [List.map_cons, List.nodup_cons] at hnd
      rcases List.mem_cons.1 hmem with heq | hrest
      · cases heq
        simp only [get, if_true]
      · have hk : k0 ≠ k := by
          rintro rfl
          exact hnd.1 (List.mem_map.2 ⟨(k0, v), hrest, rfl⟩)
        simp only [get, hk, if_false]
        exact ih hnd.2 hrest

/-- A lookup does not depend on the order in which a map is enumerated. -/
theorem get_perm (m m' : List (GoString × β)) (hnd : (m.map Prod.fst).Nodup)
    (hperm : m'.Perm m) (k : GoString) : get m' k = get m k := by
  have hnd' : (m'.map Prod.fst).Nodup := (hperm.map Prod.fst).nodup_iff.2 hnd
  cases h : get m k with
  | some v =>
    exact (get_eq_some_iff m' hnd' k v).2 (hperm.mem_iff.2 ((get_eq_some_iff m hnd k v).1 h))
  | none =>
    rw [get_eq_none_iff] at h ⊢
    exact fun hk => h ((hperm.map Prod.fst).mem_iff.1 hk)

end GoMap

namespace MountMap

variable {β π : Type}

/-- The result of the selection loop depends on the set of targets only. -/
theorem ServeHTTP.select_congr (mm mm' : MountMap β π) (urlPath : GoString)
    (hkeys : ∀ t, t ∈ mm'.Targets ↔ t ∈ mm.Targets) :
    ServeHTTP.select mm' urlPath = ServeHTTP.select mm urlPath := by
  by_cases hex : ∃ t ∈ mm.Targets, strings.HasPrefix urlPath t = true
  · obtain ⟨t, ht, hp⟩ := hex
    obtain ⟨S, hsel, hS, hSp, hSmax⟩ := ServeHTTP.select_spec mm urlPath t ht hp
    obtain ⟨S', hsel', hS', hSp', hSmax'⟩ :=
      ServeHTTP.select_spec mm' urlPath t ((hkeys t).2 ht) hp
    have hlen : S'.length = S.length :=
      le_antisymm (hSmax S' ((hkeys S').1 hS') hSp') (hSmax' S ((hkeys S).2 hS) hSp)
    have hSS : S' = S := strings.prefix_eq_of_length_eq hSp' hSp hlen
    rw [hsel, hsel', hSS]
  · have hno : ∀ t ∈ mm.Targets, strings.HasPrefix urlPath t = false := by
      intro t ht
      cases hp : strings.HasPrefix urlPath t with
      | false => rfl
      | true => exact absurd ⟨t, ht, hp⟩ hex
    rw [ServeHTTP.select_none mm urlPath hno,
      ServeHTTP.select_none mm' urlPath (fun t ht => hno t ((hkeys t).1 ht))]

/-- C15: two different targets of the same length are never both prefixes of one
path; so for every other order `m'` in which the map may be enumerated the
loop of `ServeHTTP` ends with the same `mountTarget` and `maxMountTargetLen`,
and, the keys of a map being distinct, the request is answered the same. -/
theorem ServeHTTP_select_any_order (mm : MountMap β π) (m' : List (GoString × β))
    (hperm : m'.Perm mm.m) (urlPath : GoString) :
    (∀ t1 ∈ mm.Targets, ∀ t2 ∈ mm.Targets, t1 ≠ t2 → t1.length = t2.length →
      ¬ (strings.HasPrefix urlPath t1 = true ∧ strings.HasPrefix urlPath t2 = true)) ∧
    ServeHTTP.select { mm with m := m' } urlPath = ServeHTTP.select mm urlPath ∧
    (mm.WF → ServeHTTP { mm with m := m' } urlPath = ServeHTTP mm urlPath) := by
  have hkeys : ∀ t, t ∈ ({ mm with m := m' } : MountMap β π).Targets ↔ t ∈ mm.Targets := by
    intro t
    rw [Targets_eq, Targets_eq]
    exact (hperm.map Prod.fst).mem_iff
  have hsel := ServeHTTP.select_congr mm { mm with m := m' } urlPath hkeys
  refine ⟨?_, hsel, ?_⟩
  · intro t1 _ t2 _ hne hlen hboth
    exact hne (strings.prefix_eq_of_length_eq hboth.1 hboth.2 hlen)
  · intro hwf
    rw [ServeHTTP_of_select mm urlPath (rfl : ServeHTTP.select mm urlPath = (_, _)),
      ServeHTTP_of_select { mm with m := m' } urlPath
        (hsel : ServeHTTP.select { mm with m := m' } urlPath = (_, _))]
    simp only [GoMap.get_perm mm.m m' hwf hperm]

/-- C15 at the scenario table, enumerated in the opposite order: the request for
`/docs/readme.txt` selects `/docs` in both orders. -/
theorem ServeHTTP_select_any_order_witness :
    docsTable.m.reverse.Perm docsTable.m ∧
    ServeHTTP.select { docsTable with m := docsTable.m.reverse } "/docs/readme.txt".toList
      = ServeHTTP.select docsTable "/docs/readme.txt".toList ∧
    ServeHTTP.select docsTable "/docs/readme.txt".toList = (5, "/docs".toList) :=
  ⟨List.reverse_perm _,
    (ServeHTTP_select_any_order docsTable docsTable.m.reverse (List.reverse_perm _)
      "/docs/readme.txt".toList).2.1,
    by decide⟩

end MountMap

/-! ## Fetching a server by port -/

namespace ServerPool

/-- What `Get` returns is a server of the pool with the port asked for, and `Get`
returns `nil` only when no server has that port. -/
theorem Get_spec (sp : ServerPool) (port : Nat) :
    (∀ srv, Get sp port = some srv → srv ∈ sp.Srvs ∧ srv.Port = port) ∧
    (Get sp port = none ↔ ∀ srv ∈ sp.Srvs, srv.Port ≠ port) := by
  unfold Get
  refine ⟨?_, ?_⟩
  · intro srv h
    refine ⟨List.mem_of_find?_eq_some h, ?_⟩
    have := List.find?_some h
    simpa using this
  · rw [List.find?_eq_none]
    constructor
    · intro h srv hs
      simpa using h srv hs
    · intro h srv hs
      simpa using h srv hs

/-- For a port number below 65536 `serverOr404` returns only a server with that
port, and answers "server p not found" exactly when no server has it. -/
theorem serverOr404_below_65536 (sp : ServerPool) (p : Nat) (hp : p < 65536) :
    (∀ srv, serverOr404 sp (.ok (p : Int)) = .server srv → srv ∈ sp.Srvs ∧ srv.Port = p) ∧
    (serverOr404 sp (.ok (p : Int)) = .notFound (p : Int) ↔
      ∀ srv ∈ sp.Srvs, srv.Port ≠ p) := by
  have hconv : ((p : Int) % 65536).toNat = p := by
    have : (p : Int) % 65536 = (p : Int) := Int.emod_eq_of_lt (by omega) (by omega)
    rw [this]
    exact Int.toNat_natCast p
  obtain ⟨hsome, hnone⟩ := Get_spec sp p
  unfold serverOr404
  simp only [hconv]
  cases hg : Get sp p with
  | none =>
    refine ⟨fun srv h => Fetched.noConfusion h, ?_⟩
    exact ⟨fun _ => hnone.1 hg, fun _ => rfl⟩
  | some srv0 =>
    refine ⟨?_, ?_⟩
    · intro srv h
      cases h
      exact hsome srv0 hg
    · constructor
      · intro h
        exact Fetched.noConfusion h
      · intro h
        rw [hnone.2 h] at hg
        cases hg

/-- C16, the code at a failing input.  The route pattern accepts `73616`; the
pool holds servers on the ports 8080 and 8081 and none on 73616.
`uint16(73616)` is 8080, so `serverOr404` returns the server on port 8080
where "server 73616 not found" is due. -/
theorem serverOr404_wraps_port :
    (73616 : Nat) ≤ 99999 ∧
    (∀ srv ∈ listeningPool.Srvs, srv.Port ≠ 73616) ∧
    ((73616 : Int) % 65536).toNat = 8080 ∧
    serverOr404 listeningPool (.ok 73616)
      = .server ((NewServer ":8080".toList).bound "[::]:8080".toList 8080 okListener) ∧
    ((NewServer ":8080".toList).bound "[::]:8080".toList 8080 okListener).Port = 8080 ∧
    serverOr404 listeningPool (.ok 73616) ≠ .notFound 73616 :=
  ⟨by decide, by decide, by decide, by decide, by decide, by decide⟩

end ServerPool

/-! ## A Put that fails -/

namespace MountMap

variable {β π : Type}

/-- The flag and the error of `Put` on a call that fails do not depend on the
factory. -/
theorem Put_error_factory_free (mm : MountMap β π) (fsf' : fileserver.Factory β π)
    (stat : os.StatFn) (mountTarget mountSource fsType : GoString) (fsParams : π) :
    (Put { mm with fsf := fsf' } stat mountTarget mountSource fsType fsParams).1.2
      = (Put mm stat mountTarget mountSource fsType fsParams).1.2 := by
  unfold Put
  split_ifs
  · rfl
  · rfl
  · rfl
  · cases stat mountSource with
    | error err => rfl
    | ok fi =>
      obtain ⟨d⟩ := fi
      cases d <;> rfl

/-- C17: when `Put` returns an error, the table after the call is the table
before it: the same targets, the same handle under each, the same factory;
the flag is `false`; and the call gives the same flag and error and leaves
the same map whatever the factory is, the factory having no part in it. -/
theorem Put_error_leaves_table (mm : MountMap β π) (stat : os.StatFn)
    (mountTarget mountSource fsType : GoString) (fsParams : π)
    (herr : (Put mm stat mountTarget mountSource fsType fsParams).1.2 ≠ none) :
    (Put mm stat mountTarget mountSource fsType fsParams).2 = mm ∧
    (Put mm stat mountTarget mountSource fsType fsParams).2.Targets = mm.Targets ∧
    (∀ t, GoMap.get (Put mm stat mountTarget mountSource fsType fsParams).2.m t
      = GoMap.get mm.m t) ∧
    (Put mm stat mountTarget mountSource fsType fsParams).1.1 = false ∧
    ∀ fsf' : fileserver.Factory β π,
      (Put { mm with fsf := fsf' } stat mountTarget mountSource fsType fsParams).1
        = (Put mm stat mountTarget mountSource fsType fsParams).1 ∧
      (Put { mm with fsf := fsf' } stat mountTarget mountSource fsType fsParams).2.m
        = mm.m := by
  obtain ⟨hst, hflag⟩ := Put_of_error mm stat mountTarget mountSource fsType fsParams herr
  refine ⟨hst, by rw [hst], fun t => by rw [hst], hflag, ?_⟩
  intro fsf'
  have herr' : (Put { mm with fsf := fsf' } stat mountTarget mountSource fsType fsParams).1.2
      ≠ none := by
    rw [Put_error_factory_free]
    exact herr
  obtain ⟨hst', hflag'⟩ :=
    Put_of_error { mm with fsf := fsf' } stat mountTarget mountSource fsType fsParams herr'
  refine ⟨?_, by rw [hst']⟩
  exact Prod.ext (by rw [hflag, hflag']) (Put_error_factory_free mm fsf' stat _ _ _ _)

/-- C17 at the scenario table: `Put("relative/path", "/abs/src", ...)` fails and
the table still mounts `/` and `/docs`. -/
theorem Put_error_leaves_table_witness :
    (Put docsTable dirStat "relative/path".toList "/abs/src".toList "local".toList ()).1.2
      ≠ none ∧
    (Put docsTable dirStat "relative/path".toList "/abs/src".toList "local".toList ()).2.Targets
      = ["/".toList, "/docs".toList] ∧
    (Put docsTable dirStat "relative/path".toList "/abs/src".toList "local".toList ()).1.1
      = false :=
  ⟨by decide,
    (Put_error_leaves_table docsTable dirStat "relative/path".toList "/abs/src".toList
      "local".toList () (by decide)).2.1.trans (by decide),
    by decide⟩

end MountMap

/-! ## The location of a redirect -/

namespace path

theorem elements_ne_nil (p : GoString) : elements p ≠ [] := by
  cases p with
  | nil => simp [elements]
  | cons c cs =>
    rw [elements]
    by_cases h : c = '/'
    · rw [if_pos h]
      exact List.cons_ne_nil _ _
    · rw [if_neg h]
      cases elements cs <;> exact List.cons_ne_nil _ _

/-- A slash at the end of a path adds one empty element. -/
theorem elements_append_slash (p : GoString) :
    elements (p ++ ['/']) = elements p ++ [[]] := by
  induction p with
  | nil => rfl
  | cons c cs ih =>
    rw [List.cons_append, elements, elements, ih]
    by_cases h : c = '/'
    · rw [if_pos h, if_pos h]
      rfl
    · rw [if_neg h, if_neg h]
      cases he : elements cs with
      | nil => exact absurd he (elements_ne_nil cs)
      | cons e es => rfl

/-- `Clean` does not see a slash at the end of a path that is not empty. -/
theorem Clean_append_slash (p : GoString) (hp : p ≠ []) : Clean (p ++ ['/']) = Clean p := by
  obtain ⟨c, cs, rfl⟩ := List.exists_cons_of_ne_nil hp
  have h1 : (c :: cs) ++ ['/'] ≠ [] := by simp
  have hstep : ∀ (r : Bool) (out : List GoString), Clean.step r out [] = out := by
    intro r out
    unfold Clean.step
    rw [if_pos (Or.inl rfl)]
  have hhead : ((c :: cs) ++ ['/']).head? = (c :: cs).head? := rfl
  unfold Clean
  rw [if_neg h1, if_neg hp, elements_append_slash]
  simp only [hhead, List.foldl_append, List.foldl_cons, List.foldl_nil, hstep]

end path

namespace MountMap

variable {β π : Type}

/-- C3, as the code has it: in a table built from `NewMountMap` by `Put` and
`DeleteTarget`, a request whose path is exactly a registered target `T` other
than `/` is answered by `http.Redirect` with the url `T + "/"`, no backend is
called, and the `Location` sent is that url as `net/http` rewrites it.  When
`T` is a clean path (`path.Clean(T) = T`) of ASCII bytes without `?`, the
location is `T + "/"`, whether or not `url.Parse` accepts the url. -/
theorem ServeHTTP_redirect_location (mm : MountMap β π) (hr : Reachable mm)
    (T : GoString) (hreg : T ∈ mm.Targets) (hroot : T ≠ "/".toList) :
    ServeHTTP mm T = .redirect (T ++ "/".toList) ∧
    (∀ (fs : β) (p : GoString), ServeHTTP mm T ≠ .serve fs p) ∧
    (∀ relative : Bool, (ServeHTTP mm T).location relative
      = some (http.RedirectLocation relative [] (T ++ "/".toList))) ∧
    ((∀ c ∈ T, c ≠ '?' ∧ c.toNat < 128) → path.Clean T = T →
      ∀ relative : Bool, (ServeHTTP mm T).location relative = some (T ++ "/".toList)) := by
  obtain ⟨hred, hserve⟩ := ServeHTTP_redirects_exact_target mm hr T hreg hroot
  have hloc : ∀ relative : Bool, (ServeHTTP mm T).location relative
      = some (http.RedirectLocation relative [] (T ++ "/".toList)) := by
    intro relative
    rw [hred]
    rfl
  refine ⟨hred, hserve, hloc, ?_⟩
  intro hplain hclean relative
  rw [hloc]
  congr 1
  cases relative with
  | false => rfl
  | true =>
    obtain ⟨hhead, hlast⟩ := hr.targets_checked T hreg
    have hne : T ≠ [] := hr.target_ne_nil hreg
    have hurl : (T ++ "/".toList).head? = some '/' := by
      obtain ⟨c, cs, rfl⟩ := List.exists_cons_of_ne_nil hne
      simpa using hhead
    have hspan : (T ++ "/".toList).span (fun c => c != '?') = (T ++ "/".toList, []) := by
      rw [List.span_eq_take_drop, List.takeWhile_eq_self_iff.2, List.dropWhile_eq_nil_iff.2]
      · intro c hc
        rcases List.mem_append.1 hc with h | h
        · simpa using (hplain c h).1
        · have : c = '/' := by simpa using h
          rw [this]
          decide
      · intro c hc
        rcases List.mem_append.1 hc with h | h
        · simpa using (hplain c h).1
        · have : c = '/' := by simpa using h
          rw [this]
          decide
    have htrail : strings.HasSuffix (T ++ "/".toList) "/".toList = true :=
      (strings.HasSuffix_iff _ _).2 ⟨T, rfl⟩
    have hcl : path.Clean (T ++ "/".toList) = T := by
      rw [show "/".toList = ['/'] from rfl, path.Clean_append_slash T hne, hclean]
    have hnotrail : strings.HasSuffix T "/".toList = false := by
      cases h : strings.HasSuffix T "/".toList with
      | false => rfl
      | true =>
        exact absurd ((strings.HasSuffix_slash T).1 h) (hlast.resolve_left hroot)
    unfold http.RedirectLocation
    simp only [if_true, hurl, ne_eq, not_true_eq_false, if_false, hspan, htrail, hcl, hnotrail,
      Bool.not_false, Bool.and_self, List.append_nil]

/-- C3 at the scenario: `/docs` is a clean path, and the request for `/docs` is
redirected to the location `/docs/`. -/
theorem ServeHTTP_redirect_location_witness :
    (Reachable docsTable ∧ "/docs".toList ∈ docsTable.Targets ∧
      "/docs".toList ≠ "/".toList) ∧
    ServeHTTP docsTable "/docs".toList = .redirect "/docs/".toList ∧
    ∀ relative : Bool,
      (ServeHTTP docsTable "/docs".toList).location relative = some "/docs/".toList :=
  ⟨⟨docsTable_reachable, by decide, by decide⟩,
    (ServeHTTP_redirect_location docsTable docsTable_reachable "/docs".toList
      (by decide) (by decide)).1,
    (ServeHTTP_redirect_location docsTable docsTable_reachable "/docs".toList
      (by decide) (by decide)).2.2.2 (by decide) (by decide)⟩

/-- C3 as stated fails at the target `/a//b`, which `Put` registers: the request
for `/a//b` is answered by `http.Redirect` with the url `/a//b/`, which has no
scheme and no host, and the `Location` sent is the cleaned `/a/b/`, not
`T + "/"`. -/
theorem redirect_location_is_cleaned :
    Reachable slashTable ∧ "/a//b".toList ∈ slashTable.Targets ∧
    "/a//b".toList ≠ "/".toList ∧
    ServeHTTP slashTable "/a//b".toList = .redirect "/a//b/".toList ∧
    (ServeHTTP slashTable "/a//b".toList).location true = some "/a/b/".toList ∧
    (ServeHTTP slashTable "/a//b".toList).location true
      ≠ some ("/a//b".toList ++ "/".toList) :=
  ⟨Reachable.put _ _ _ _ _ _ (Reachable.new _), by decide, by decide, by decide, by decide,
    by decide⟩

end MountMap

end Kraken
